import Mathlib

/-!
# memcopy.h : chunked memory copy

A shallow embedding of `src/memcopy.h`: the dispatcher `memcopy` and the four
width-specialised loops `memcopy8`, `memcopy16`, `memcopy32`, `memcopy64`.

* Memory is a map from byte addresses to byte values.  Element assignments of
  width `W` move `W` consecutive bytes (the element is loaded, then stored).
* Pointers are byte addresses (`Nat`); `NULL` is address `0`.
* `size_t` and `uintptr` are unsigned integers of `sizeBits` bits; their
  arithmetic is written with an explicit `% 2 ^ sizeBits`.
* `assert` is enabled: a failing assertion ends the run with `Fault.assertion`.
* The machine carries a chronological trace of instrumentation events: one
  `call` event at the entry of every width loop, one `assign` event for every
  element assignment executed by a loop body.
-/

namespace Memcopy

/-- Instrumentation events recorded while the code runs.
`call W d s n` : the width-`W` loop (`memcopy8/16/32/64` for `W = 1/2/4/8`) was
entered with arguments `(a_dest, a_src, a_byteLen) = (d, s, n)`.
`assign W d s` : one loop-body assignment moved the `W` bytes at addresses
`s .. s+W-1` to addresses `d .. d+W-1`. -/
inductive Event where
  | call (width dest src byteLen : Nat)
  | assign (width dest src : Nat)
  deriving DecidableEq, Repr

/-- Abnormal ends of a run: a failed `assert`, or the loop model running out of fuel. -/
inductive Fault where
  | assertion
  | fuel
  deriving DecidableEq, Repr

/-- Byte-addressed memory together with the instrumentation trace. -/
structure Machine where
  mem : Nat → Nat
  trace : List Event

/-- Compile-time configuration of the target, taken as parameters because it is declared
outside `memcopy.h`: `busSize` is the macro `_BUS_SIZE`, `sizeBits` the number of value
bits of `size_t` and of the loop counter type `uintptr`. -/
structure Target where
  busSize : Nat
  sizeBits : Nat

/-- Modelled from the spec: `datatypes.h` is not part of the sources; `uint8` is the
1-byte element type (`sizeof(uint8)`). -/
def sizeof_uint8 : Nat := 1

/-- Modelled from the spec: `datatypes.h` is not part of the sources; `uint16` is the
2-byte element type (`sizeof(uint16)`). -/
def sizeof_uint16 : Nat := 2

/-- Modelled from the spec: `datatypes.h` is not part of the sources; `uint32` is the
4-byte element type (`sizeof(uint32)`). -/
def sizeof_uint32 : Nat := 4

/-- Modelled from the spec: `datatypes.h` is not part of the sources; `uint64` is the
8-byte element type (`sizeof(uint64)`). -/
def sizeof_uint64 : Nat := 8

/-- The null pointer. -/
def NULL : Nat := 0

/-- Addition of two `size_t` values (wraps around). -/
def sizeAdd (T : Target) (a b : Nat) : Nat :=
  (a + b) % 2 ^ T.sizeBits

/-- Subtraction of two `size_t` values (wraps around). -/
def sizeSub (T : Target) (a b : Nat) : Nat :=
  (a + (2 ^ T.sizeBits - b % 2 ^ T.sizeBits)) % 2 ^ T.sizeBits

/-- Bitwise complement `~(size_t)(a)`. -/
def sizeNot (T : Target) (a : Nat) : Nat :=
  2 ^ T.sizeBits - 1 - a % 2 ^ T.sizeBits

/-- One loop-body statement `*((uintW *)(a_dest)+c) = *((uintW *)(a_src)+c)` once the
two element addresses `d` and `s` are known: the `W`-byte element at `s` is loaded and
stored at `d`. -/
def assignElem (W d s : Nat) (m : Machine) : Machine :=
  { mem := fun x => if d ≤ x ∧ x < d + W then m.mem (s + (x - d)) else m.mem x
    trace := m.trace ++ [Event.assign W d s] }

/-- The loop `for (uintptr c = 0; c < a_byteLen; c += sizeof(uintW)) *((uintW *)(a_dest)+c) =
*((uintW *)(a_src)+c);` shared by the four width loops (`W = sizeof(uintW)`), started at
counter value `c`.  The cast binds tighter than `+`, so `(uintW *)(a_dest) + c` is pointer
arithmetic on a `W`-byte element type: the element addressed lies `c * W` bytes after
`a_dest`.  The counter update `c += sizeof(uintW)` is `uintptr` arithmetic and wraps.
The first argument after `a_byteLen` is the fuel, the number of iterations the model may
still run; running out of it is reported as `Fault.fuel`. -/
def copyLoop (T : Target) (W a_dest a_src a_byteLen : Nat) :
    Nat → Nat → Machine → Except Fault Machine
  | 0, c, m => if c < a_byteLen then .error .fuel else .ok m
  | fuel + 1, c, m =>
    if c < a_byteLen then
      copyLoop T W a_dest a_src a_byteLen fuel (sizeAdd T c W)
        (assignElem W (a_dest + c * W) (a_src + c * W) m)
    else .ok m

/-- Entry instrumentation of a width loop: the call and its arguments are appended to the
trace before anything else happens. -/
def enter (W a_dest a_src a_byteLen : Nat) (m : Machine) : Machine :=
  { m with trace := m.trace ++ [Event.call W a_dest a_src a_byteLen] }

/-- Source `memcopy8` (memcopy.h lines 86-90): no assertion, the byte loop, `return a_dest`.
Fuel `a_byteLen` is given to the loop, one unit for every byte of the request. -/
def memcopy8 (T : Target) (a_dest a_src a_byteLen : Nat) (m : Machine) :
    Except Fault (Nat × Machine) :=
  match copyLoop T sizeof_uint8 a_dest a_src a_byteLen a_byteLen 0
      (enter sizeof_uint8 a_dest a_src a_byteLen m) with
  | .error e => .error e
  | .ok m1 => .ok (a_dest, m1)

/-- Source `memcopy16` (memcopy.h lines 101-106): `assert(!(a_byteLen & 0x1))`, the loop on
`uint16` elements, `return a_dest`. -/
def memcopy16 (T : Target) (a_dest a_src a_byteLen : Nat) (m : Machine) :
    Except Fault (Nat × Machine) :=
  if a_byteLen &&& 0x1 ≠ 0 then .error .assertion
  else
    match copyLoop T sizeof_uint16 a_dest a_src a_byteLen a_byteLen 0
        (enter sizeof_uint16 a_dest a_src a_byteLen m) with
    | .error e => .error e
    | .ok m1 => .ok (a_dest, m1)

/-- Source `memcopy32` (memcopy.h lines 117-122): `assert(!(a_byteLen & 0x3))`, the loop on
`uint32` elements, `return a_dest`. -/
def memcopy32 (T : Target) (a_dest a_src a_byteLen : Nat) (m : Machine) :
    Except Fault (Nat × Machine) :=
  if a_byteLen &&& 0x3 ≠ 0 then .error .assertion
  else
    match copyLoop T sizeof_uint32 a_dest a_src a_byteLen a_byteLen 0
        (enter sizeof_uint32 a_dest a_src a_byteLen m) with
    | .error e => .error e
    | .ok m1 => .ok (a_dest, m1)

/-- Source `memcopy64` (memcopy.h lines 133-138): `assert(!(a_byteLen & 0x7))`, the loop on
`uint64` elements, `return a_dest`. -/
def memcopy64 (T : Target) (a_dest a_src a_byteLen : Nat) (m : Machine) :
    Except Fault (Nat × Machine) :=
  if a_byteLen &&& 0x7 ≠ 0 then .error .assertion
  else
    match copyLoop T sizeof_uint64 a_dest a_src a_byteLen a_byteLen 0
        (enter sizeof_uint64 a_dest a_src a_byteLen m) with
    | .error e => .error e
    | .ok m1 => .ok (a_dest, m1)

/-- The local variables of `memcopy` that live across its four `if` blocks, with the
machine state. -/
structure Locals where
  len : Nat
  totalOffset : Nat
  m : Machine

/-- Source `memcopy`, lines 47-53: the 8-byte block
`if (len > 111b && _BUS_SIZE >= sizeof(uint64)) { offset = len & ~(size_t)(111b);
memcopy64(a_dest, a_src, offset); totalOffset += offset; len -= totalOffset; }`.
The literals `111b`, `11b`, `1b` of the dispatcher are binary numerals (7, 3, 1), the
masks `0x7`, `0x3`, `0x1` of the assertions.  The pointer returned by the loop is
discarded. -/
def stage64 (T : Target) (a_dest a_src : Nat) (s : Locals) : Except Fault Locals :=
  if s.len > 0b111 ∧ T.busSize ≥ sizeof_uint64 then
    let offset := s.len &&& sizeNot T 0b111
    match memcopy64 T a_dest a_src offset s.m with
    | .error e => .error e
    | .ok (_, m1) =>
      let totalOffset := sizeAdd T s.totalOffset offset
      .ok { len := sizeSub T s.len totalOffset, totalOffset := totalOffset, m := m1 }
  else .ok s

/-- Source `memcopy`, lines 54-59: the 4-byte block
`if (len > 11b && _BUS_SIZE >= sizeof(uint32)) { offset = len & ~(size_t)(11b);
memcopy32((void *)((size_t)(a_dest) + totalOffset), (void *)((size_t)(a_src) + totalOffset),
offset); totalOffset += offset; len = a_byteLen - totalOffset; }`. -/
def stage32 (T : Target) (a_dest a_src a_byteLen : Nat) (s : Locals) : Except Fault Locals :=
  if s.len > 0b11 ∧ T.busSize ≥ sizeof_uint32 then
    let offset := s.len &&& sizeNot T 0b11
    match memcopy32 T (sizeAdd T a_dest s.totalOffset) (sizeAdd T a_src s.totalOffset)
        offset s.m with
    | .error e => .error e
    | .ok (_, m1) =>
      let totalOffset := sizeAdd T s.totalOffset offset
      .ok { len := sizeSub T a_byteLen totalOffset, totalOffset := totalOffset, m := m1 }
  else .ok s

/-- Source `memcopy`, lines 60-65: the 2-byte block, as the 4-byte block with `1b`,
`uint16` and `memcopy16`. -/
def stage16 (T : Target) (a_dest a_src a_byteLen : Nat) (s : Locals) : Except Fault Locals :=
  if s.len > 0b1 ∧ T.busSize ≥ sizeof_uint16 then
    let offset := s.len &&& sizeNot T 0b1
    match memcopy16 T (sizeAdd T a_dest s.totalOffset) (sizeAdd T a_src s.totalOffset)
        offset s.m with
    | .error e => .error e
    | .ok (_, m1) =>
      let totalOffset := sizeAdd T s.totalOffset offset
      .ok { len := sizeSub T a_byteLen totalOffset, totalOffset := totalOffset, m := m1 }
  else .ok s

/-- Source `memcopy`, lines 67-73: the 1-byte block
`if (len && _BUS_SIZE >= sizeof(uint8)) { offset = len; memcopy8(..., offset); }`
(the updates of `totalOffset` and `len` are commented out in the source). -/
def stage8 (T : Target) (a_dest a_src : Nat) (s : Locals) : Except Fault Locals :=
  if s.len ≠ 0 ∧ T.busSize ≥ sizeof_uint8 then
    let offset := s.len
    match memcopy8 T (sizeAdd T a_dest s.totalOffset) (sizeAdd T a_src s.totalOffset)
        offset s.m with
    | .error e => .error e
    | .ok (_, m1) => .ok { s with m := m1 }
  else .ok s

/-- Source `memcopy` (memcopy.h lines 42-75): `if (!a_byteLen) return a_dest = NULL;`, then
`len = a_byteLen`, `totalOffset = 0`, the four blocks in the order 8, 4, 2, 1 bytes, and
`return a_dest`.  The result is the returned pointer and the final machine. -/
def memcopy (T : Target) (a_dest a_src a_byteLen : Nat) (m : Machine) :
    Except Fault (Nat × Machine) :=
  if a_byteLen = 0 then .ok (NULL, m)
  else
    match stage64 T a_dest a_src { len := a_byteLen, totalOffset := 0, m := m } with
    | .error e => .error e
    | .ok s1 =>
      match stage32 T a_dest a_src a_byteLen s1 with
      | .error e => .error e
      | .ok s2 =>
        match stage16 T a_dest a_src a_byteLen s2 with
        | .error e => .error e
        | .ok s3 =>
          match stage8 T a_dest a_src s3 with
          | .error e => .error e
          | .ok s4 => .ok (a_dest, s4.m)

/-! ## Observations on traces -/

/-- The `(width, byteLen)` pairs of the loop invocations in a trace, in order. -/
def callsOf : List Event → List (Nat × Nat)
  | [] => []
  | Event.call W _ _ n :: es => (W, n) :: callsOf es
  | Event.assign _ _ _ :: es => callsOf es

/-- Total byte count handed to the loop of width `W` (0 when it is never invoked). -/
def bytesGiven (W : Nat) (calls : List (Nat × Nat)) : Nat :=
  ((calls.filter (fun c => c.1 = W)).map Prod.snd).sum

/-- The loop of width `W` is invoked at least once. -/
def invoked (W : Nat) (calls : List (Nat × Nat)) : Prop :=
  ∃ n, (W, n) ∈ calls

/-- The `(dest, src, width)` triples of the element assignments in a trace, in order. -/
def assignsOf : List Event → List (Nat × Nat × Nat)
  | [] => []
  | Event.call _ _ _ _ :: es => assignsOf es
  | Event.assign W d s :: es => (d, s, W) :: assignsOf es

/-- A machine with the given memory and an empty trace. -/
def start (mem : Nat → Nat) : Machine :=
  { mem := mem, trace := [] }

/-- Memory whose byte at address `a` holds the value `a`. -/
def idMem : Nat → Nat := fun a => a


/-! ## Closed form of the dispatch

Arithmetic descriptions of what the dispatcher does, used to state and prove the lemmas
below; `memcopy_stages` proves that the code agrees with them. -/

/-- The invocation made by the `if` block of width `W` when `len` bytes remain. -/
def blockCalls (B W len : Nat) : List (Nat × Nat) :=
  if W ≤ len ∧ W ≤ B then [(W, len - len % W)] else []

/-- The bytes still remaining after the `if` block of width `W`. -/
def blockRest (B W len : Nat) : Nat :=
  if W ≤ len ∧ W ≤ B then len % W else len

/-- The invocations `memcopy` makes, in order, for bus size `B` and a non-zero length `L`. -/
def dispatchCalls (B L : Nat) : List (Nat × Nat) :=
  blockCalls B 8 L ++ (blockCalls B 4 (blockRest B 8 L) ++
    (blockCalls B 2 (blockRest B 4 (blockRest B 8 L)) ++
      blockCalls B 1 (blockRest B 2 (blockRest B 4 (blockRest B 8 L)))))

/-! ## Closed form of the loops and of the whole run -/

/-- The machine after the `k` element assignments numbered `j, j+1, .., j+k-1` of a
width-`W` loop: assignment number `i` is made with counter value `c = i * W`, so it moves
the `W` bytes at `s + i * W * W` to `d + i * W * W`. -/
def elemsFrom (W d s j : Nat) : Nat → Machine → Machine
  | 0, m => m
  | k + 1, m =>
    assignElem W (d + (j + k) * W * W) (s + (j + k) * W * W) (elemsFrom W d s j k m)

/-- The machine a width-`W` loop leaves when it is given `n` bytes, `n` a multiple of `W`:
the entry event, then the `n / W` element assignments. -/
def loopRun (W d s n : Nat) (m : Machine) : Machine :=
  elemsFrom W d s 0 (n / W) (enter W d s n m)

/-- The machine after the `if` block of width `W`, entered with `len` bytes remaining and
the chunk addresses `d`, `s`. -/
def blockRun (B W d s len : Nat) (m : Machine) : Machine :=
  if W ≤ len ∧ W ≤ B then loopRun W d s (len - len % W) m else m

/-- The machine after the four blocks of `memcopy` for a non-zero length `L`. -/
def dispatchRun (T : Target) (d s L : Nat) (m : Machine) : Machine :=
  let r8 := blockRest T.busSize 8 L
  let r4 := blockRest T.busSize 4 r8
  let r2 := blockRest T.busSize 2 r4
  blockRun T.busSize 1 (sizeAdd T d (L - r2)) (sizeAdd T s (L - r2)) r2
    (blockRun T.busSize 2 (sizeAdd T d (L - r4)) (sizeAdd T s (L - r4)) r4
      (blockRun T.busSize 4 (sizeAdd T d (L - r8)) (sizeAdd T s (L - r8)) r8
        (blockRun T.busSize 8 d s L m)))

/-- The `(width, dest, src, byteLen)` arguments of the loop invocations in a trace, in
order. -/
def callArgs : List Event → List (Nat × Nat × Nat × Nat)
  | [] => []
  | Event.call W d s n :: es => (W, d, s, n) :: callArgs es
  | Event.assign _ _ _ :: es => callArgs es

/-- Memory that holds 1 at address 1448 and 0 everywhere else. -/
def spikeMem : Nat → Nat := fun a => if a = 1448 then 1 else 0

/-- The access pattern of a width-`W` loop given `n` bytes at `d`, `s` from machine `m`, as
a property of its result `res`: it ends normally and returns `d`; it makes exactly `n / W`
element assignments, number `k` moving the `W` bytes at `s + k * W * W` to
`d + k * W * W`; every byte outside the elements written keeps its value; and when the
ranges read and written do not overlap, every written byte holds the original source
byte. -/
def AccessPattern (W d s n : Nat) (m : Machine) (res : Except Fault (Nat × Machine)) : Prop :=
  ∃ m1, res = .ok (d, m1) ∧
    assignsOf m1.trace = assignsOf m.trace ++
      (List.range (n / W)).map (fun k => (d + k * W * W, s + k * W * W, W)) ∧
    (assignsOf m1.trace).length = (assignsOf m.trace).length + n / W ∧
    (∀ a, (∀ k, k < n / W → ¬ (d + k * W * W ≤ a ∧ a < d + k * W * W + W)) →
      m1.mem a = m.mem a) ∧
    ((d + n / W * (W * W) ≤ s ∨ s + n / W * (W * W) ≤ d) →
      ∀ k t, k < n / W → t < W → m1.mem (d + k * W * W + t) = m.mem (s + k * W * W + t))

/-- The chunks `cs` (loop invocations with their arguments) lie one after the other from
byte offset `off` on: each is given the address `d + o` in the destination and `s + o` in
the source, where `o` is `off` plus the byte counts of the chunks before it. -/
def chunksFrom (d s : Nat) : Nat → List (Nat × Nat × Nat × Nat) → Prop
  | _, [] => True
  | off, (_, d1, s1, n) :: cs => d1 = d + off ∧ s1 = s + off ∧ chunksFrom d s (off + n) cs

/-! ## Arithmetic of `size_t` -/

theorem sizeAdd_of_lt (T : Target) (a b : Nat) (h : a + b < 2 ^ T.sizeBits) :
    sizeAdd T a b = a + b :=
  Nat.mod_eq_of_lt h

theorem sizeSub_of_le (T : Target) (a b : Nat) (hb : b ≤ a) (ha : a < 2 ^ T.sizeBits) :
    sizeSub T a b = a - b := by
  unfold sizeSub
  have hbm : b % 2 ^ T.sizeBits = b := Nat.mod_eq_of_lt (Nat.lt_of_le_of_lt hb ha)
  have e : a + (2 ^ T.sizeBits - b) = (a - b) + 2 ^ T.sizeBits := by omega
  rw [hbm, e, Nat.add_mod_right]
  exact Nat.mod_eq_of_lt (by omega)

/-- Clearing the low `k` bits of a `bits`-bit value rounds it down to a multiple of `2 ^ k`. -/
theorem and_not_mask (bits k x : Nat) (hk : k ≤ bits) (hx : x < 2 ^ bits) :
    x &&& (2 ^ bits - 1 - (2 ^ k - 1)) = x - x % 2 ^ k := by
  have hpk : 0 < 2 ^ k := Nat.two_pow_pos k
  have hle : 2 ^ k ≤ 2 ^ bits := Nat.pow_le_pow_right (by decide) hk
  have h1 : 2 ^ bits - 1 - (2 ^ k - 1) = 2 ^ bits - ((2 ^ k - 1) + 1) := by omega
  have h2 : x - x % 2 ^ k = 2 ^ k * (x / 2 ^ k) := by
    have := Nat.div_add_mod x (2 ^ k)
    omega
  rw [h1, h2]
  apply Nat.eq_of_testBit_eq
  intro j
  rw [Nat.testBit_and, Nat.testBit_two_pow_sub_succ (by omega), Nat.testBit_two_pow_sub_one,
    Nat.testBit_mul_pow_two, ← Nat.shiftRight_eq_div_pow, Nat.testBit_shiftRight]
  by_cases hj : j < k
  · simp [hj]
  · have hkj : k ≤ j := Nat.le_of_not_lt hj
    have e : k + (j - k) = j := by omega
    by_cases hb : j < bits
    · simp [hj, hkj, hb, e]
    · have hxj : x < 2 ^ j :=
        Nat.lt_of_lt_of_le hx (Nat.pow_le_pow_right (by decide) (Nat.le_of_not_lt hb))
      simp [hj, hkj, hb, e, Nat.testBit_lt_two_pow hxj]

/-- The expression `len & ~(size_t)(2^k - 1)` of the dispatcher, for a length that
passed the guard `len > 2^k - 1`. -/
theorem and_sizeNot (T : Target) (k x : Nat) (hx : x < 2 ^ T.sizeBits) (hk : 2 ^ k ≤ x) :
    x &&& sizeNot T (2 ^ k - 1) = x - x % 2 ^ k := by
  have hlt : 2 ^ k < 2 ^ T.sizeBits := Nat.lt_of_le_of_lt hk hx
  have hkb : k < T.sizeBits := (Nat.pow_lt_pow_iff_right (by decide)).1 hlt
  have hpk : 0 < 2 ^ k := Nat.two_pow_pos k
  unfold sizeNot
  rw [Nat.mod_eq_of_lt (by omega)]
  exact and_not_mask T.sizeBits k x (Nat.le_of_lt hkb) hx

theorem and_sizeNot_7 (T : Target) (x : Nat) (hx : x < 2 ^ T.sizeBits) (h : 7 < x) :
    x &&& sizeNot T 0b111 = x - x % 8 :=
  and_sizeNot T 3 x hx h

theorem and_sizeNot_3 (T : Target) (x : Nat) (hx : x < 2 ^ T.sizeBits) (h : 3 < x) :
    x &&& sizeNot T 0b11 = x - x % 4 :=
  and_sizeNot T 2 x hx h

theorem and_sizeNot_1 (T : Target) (x : Nat) (hx : x < 2 ^ T.sizeBits) (h : 1 < x) :
    x &&& sizeNot T 0b1 = x - x % 2 :=
  and_sizeNot T 1 x hx h

/-! ## Traces -/

theorem callsOf_append (xs ys : List Event) :
    callsOf (xs ++ ys) = callsOf xs ++ callsOf ys := by
  induction xs with
  | nil => rfl
  | cons e es ih =>
    cases e with
    | call W d s n => simp [callsOf, ih]
    | assign W d s => simp [callsOf, ih]

theorem callsOf_assignElem (W d s : Nat) (m : Machine) :
    callsOf (assignElem W d s m).trace = callsOf m.trace := by
  simp [assignElem, callsOf_append, callsOf]

theorem callsOf_enter (W d s n : Nat) (m : Machine) :
    callsOf (enter W d s n m).trace = callsOf m.trace ++ [(W, n)] := by
  simp [enter, callsOf_append, callsOf]

/-! ## The loops terminate on multiples of their width -/

/-- From counter value `c`, with `k` elements left and enough fuel, the loop ends normally
and records no loop invocation. -/
theorem copyLoop_ok (T : Target) (W d s n : Nat) (hW : 0 < W) (hn : n < 2 ^ T.sizeBits) :
    ∀ (k fuel c : Nat) (m : Machine), n = c + k * W → k ≤ fuel →
      ∃ m1, copyLoop T W d s n fuel c m = .ok m1 ∧ callsOf m1.trace = callsOf m.trace := by
  intro k
  induction k with
  | zero =>
    intro fuel c m hc _
    have hlt : ¬ c < n := by omega
    cases fuel with
    | zero => exact ⟨m, by simp [copyLoop, hlt], rfl⟩
    | succ f => exact ⟨m, by simp [copyLoop, hlt], rfl⟩
  | succ k ih =>
    intro fuel c m hc hf
    have hmul : (k + 1) * W = k * W + W := Nat.succ_mul k W
    have hlt : c < n := by omega
    cases fuel with
    | zero => omega
    | succ f =>
      have hadd : sizeAdd T c W = c + W := sizeAdd_of_lt T c W (by omega)
      obtain ⟨m1, h1, h2⟩ := ih f (c + W)
        (assignElem W (d + c * W) (s + c * W) m) (by omega) (by omega)
      refine ⟨m1, ?_, ?_⟩
      · simp only [copyLoop, hlt, if_true, hadd]
        exact h1
      · rw [h2, callsOf_assignElem]

/-- A loop of width `W > 0` given a multiple of `W` ends normally within fuel `n`. -/
theorem copyLoop_multiple (T : Target) (W d s n : Nat) (hW : 0 < W)
    (hn : n < 2 ^ T.sizeBits) (hdiv : n % W = 0) (m : Machine) :
    ∃ m1, copyLoop T W d s n n 0 m = .ok m1 ∧ callsOf m1.trace = callsOf m.trace := by
  have hk : n = 0 + (n / W) * W := by
    have := Nat.div_add_mod n W
    rw [hdiv, Nat.mul_comm] at this
    omega
  exact copyLoop_ok T W d s n hW hn (n / W) n 0 m hk (Nat.div_le_self n W)

theorem memcopy8_ok (T : Target) (d s n : Nat) (hn : n < 2 ^ T.sizeBits) (m : Machine) :
    ∃ m1, memcopy8 T d s n m = .ok (d, m1) ∧
      callsOf m1.trace = callsOf m.trace ++ [(1, n)] := by
  obtain ⟨m1, h1, h2⟩ := copyLoop_multiple T sizeof_uint8 d s n (by decide) hn
    (Nat.mod_one n) (enter sizeof_uint8 d s n m)
  exact ⟨m1, by simp [memcopy8, h1], by rw [h2, callsOf_enter]; rfl⟩

theorem memcopy16_ok (T : Target) (d s n : Nat) (hn : n < 2 ^ T.sizeBits)
    (hdiv : n % 2 = 0) (m : Machine) :
    ∃ m1, memcopy16 T d s n m = .ok (d, m1) ∧
      callsOf m1.trace = callsOf m.trace ++ [(2, n)] := by
  obtain ⟨m1, h1, h2⟩ := copyLoop_multiple T sizeof_uint16 d s n (by decide) hn
    hdiv (enter sizeof_uint16 d s n m)
  have hmask : n &&& 0x1 = 0 := by
    rw [show (0x1 : Nat) = 2 ^ 1 - 1 from rfl, Nat.and_pow_two_sub_one_eq_mod]
    exact hdiv
  exact ⟨m1, by simp [memcopy16, h1, hmask], by rw [h2, callsOf_enter]; rfl⟩

theorem memcopy32_ok (T : Target) (d s n : Nat) (hn : n < 2 ^ T.sizeBits)
    (hdiv : n % 4 = 0) (m : Machine) :
    ∃ m1, memcopy32 T d s n m = .ok (d, m1) ∧
      callsOf m1.trace = callsOf m.trace ++ [(4, n)] := by
  obtain ⟨m1, h1, h2⟩ := copyLoop_multiple T sizeof_uint32 d s n (by decide) hn
    hdiv (enter sizeof_uint32 d s n m)
  have hmask : n &&& 0x3 = 0 := by
    rw [show (0x3 : Nat) = 2 ^ 2 - 1 from rfl, Nat.and_pow_two_sub_one_eq_mod]
    exact hdiv
  exact ⟨m1, by simp [memcopy32, h1, hmask], by rw [h2, callsOf_enter]; rfl⟩

theorem memcopy64_ok (T : Target) (d s n : Nat) (hn : n < 2 ^ T.sizeBits)
    (hdiv : n % 8 = 0) (m : Machine) :
    ∃ m1, memcopy64 T d s n m = .ok (d, m1) ∧
      callsOf m1.trace = callsOf m.trace ++ [(8, n)] := by
  obtain ⟨m1, h1, h2⟩ := copyLoop_multiple T sizeof_uint64 d s n (by decide) hn
    hdiv (enter sizeof_uint64 d s n m)
  have hmask : n &&& 0x7 = 0 := by
    rw [show (0x7 : Nat) = 2 ^ 3 - 1 from rfl, Nat.and_pow_two_sub_one_eq_mod]
    exact hdiv
  exact ⟨m1, by simp [memcopy64, h1, hmask], by rw [h2, callsOf_enter]; rfl⟩

/-! ## The four blocks of the dispatcher -/

theorem stage64_ok (T : Target) (d src : Nat) (s : Locals)
    (hlen : s.len < 2 ^ T.sizeBits) (hoff : s.totalOffset = 0) :
    ∃ s1, stage64 T d src s = .ok s1 ∧
      s1.len = blockRest T.busSize 8 s.len ∧
      s1.totalOffset + s1.len = s.len ∧
      callsOf s1.m.trace = callsOf s.m.trace ++ blockCalls T.busSize 8 s.len := by
  by_cases g : s.len > 0b111 ∧ T.busSize ≥ sizeof_uint64
  · have g1 : 7 < s.len := g.1
    have g2 : 8 ≤ s.len ∧ 8 ≤ T.busSize := ⟨g.1, g.2⟩
    have hoffset : s.len &&& sizeNot T 0b111 = s.len - s.len % 8 := and_sizeNot_7 T s.len hlen g1
    obtain ⟨m1, h1, h2⟩ := memcopy64_ok T d src (s.len - s.len % 8) (by omega) (by omega) s.m
    have hadd : sizeAdd T s.totalOffset (s.len - s.len % 8) = s.len - s.len % 8 := by
      rw [hoff, sizeAdd_of_lt T 0 _ (by omega)]; omega
    have hsub : sizeSub T s.len (s.len - s.len % 8) = s.len % 8 := by
      rw [sizeSub_of_le T _ _ (by omega) hlen]; omega
    refine ⟨{ len := s.len % 8, totalOffset := s.len - s.len % 8, m := m1 }, ?_, ?_, ?_, ?_⟩
    · simp only [stage64, if_pos g, hoffset, h1, hadd, hsub]
    · simp [blockRest, g2]
    · show s.len - s.len % 8 + s.len % 8 = s.len
      omega
    · simp [blockCalls, g2, h2]
  · have g2 : ¬ (8 ≤ s.len ∧ 8 ≤ T.busSize) := fun h => g ⟨h.1, h.2⟩
    exact ⟨s, by simp only [stage64, if_neg g], by simp [blockRest, g2], by omega,
      by simp [blockCalls, g2]⟩

theorem stage32_ok (T : Target) (d src L : Nat) (s : Locals)
    (hL : L < 2 ^ T.sizeBits) (hinv : s.totalOffset + s.len = L) :
    ∃ s1, stage32 T d src L s = .ok s1 ∧
      s1.len = blockRest T.busSize 4 s.len ∧
      s1.totalOffset + s1.len = L ∧
      callsOf s1.m.trace = callsOf s.m.trace ++ blockCalls T.busSize 4 s.len := by
  by_cases g : s.len > 0b11 ∧ T.busSize ≥ sizeof_uint32
  · have g1 : 3 < s.len := g.1
    have g2 : 4 ≤ s.len ∧ 4 ≤ T.busSize := ⟨g.1, g.2⟩
    have hoffset : s.len &&& sizeNot T 0b11 = s.len - s.len % 4 :=
      and_sizeNot_3 T s.len (by omega) g1
    obtain ⟨m1, h1, h2⟩ := memcopy32_ok T (sizeAdd T d s.totalOffset)
      (sizeAdd T src s.totalOffset) (s.len - s.len % 4) (by omega) (by omega) s.m
    have hadd : sizeAdd T s.totalOffset (s.len - s.len % 4) =
        s.totalOffset + (s.len - s.len % 4) := sizeAdd_of_lt T _ _ (by omega)
    have hsub : sizeSub T L (s.totalOffset + (s.len - s.len % 4)) = s.len % 4 := by
      rw [sizeSub_of_le T _ _ (by omega) hL]; omega
    refine ⟨{ len := s.len % 4, totalOffset := s.totalOffset + (s.len - s.len % 4), m := m1 },
      ?_, ?_, ?_, ?_⟩
    · simp only [stage32, if_pos g, hoffset, h1, hadd, hsub]
    · simp [blockRest, g2]
    · show s.totalOffset + (s.len - s.len % 4) + s.len % 4 = L
      omega
    · simp [blockCalls, g2, h2]
  · have g2 : ¬ (4 ≤ s.len ∧ 4 ≤ T.busSize) := fun h => g ⟨h.1, h.2⟩
    exact ⟨s, by simp only [stage32, if_neg g], by simp [blockRest, g2], hinv,
      by simp [blockCalls, g2]⟩

theorem stage16_ok (T : Target) (d src L : Nat) (s : Locals)
    (hL : L < 2 ^ T.sizeBits) (hinv : s.totalOffset + s.len = L) :
    ∃ s1, stage16 T d src L s = .ok s1 ∧
      s1.len = blockRest T.busSize 2 s.len ∧
      s1.totalOffset + s1.len = L ∧
      callsOf s1.m.trace = callsOf s.m.trace ++ blockCalls T.busSize 2 s.len := by
  by_cases g : s.len > 0b1 ∧ T.busSize ≥ sizeof_uint16
  · have g1 : 1 < s.len := g.1
    have g2 : 2 ≤ s.len ∧ 2 ≤ T.busSize := ⟨g.1, g.2⟩
    have hoffset : s.len &&& sizeNot T 0b1 = s.len - s.len % 2 :=
      and_sizeNot_1 T s.len (by omega) g1
    obtain ⟨m1, h1, h2⟩ := memcopy16_ok T (sizeAdd T d s.totalOffset)
      (sizeAdd T src s.totalOffset) (s.len - s.len % 2) (by omega) (by omega) s.m
    have hadd : sizeAdd T s.totalOffset (s.len - s.len % 2) =
        s.totalOffset + (s.len - s.len % 2) := sizeAdd_of_lt T _ _ (by omega)
    have hsub : sizeSub T L (s.totalOffset + (s.len - s.len % 2)) = s.len % 2 := by
      rw [sizeSub_of_le T _ _ (by omega) hL]; omega
    refine ⟨{ len := s.len % 2, totalOffset := s.totalOffset + (s.len - s.len % 2), m := m1 },
      ?_, ?_, ?_, ?_⟩
    · simp only [stage16, if_pos g, hoffset, h1, hadd, hsub]
    · simp [blockRest, g2]
    · show s.totalOffset + (s.len - s.len % 2) + s.len % 2 = L
      omega
    · simp [blockCalls, g2, h2]
  · have g2 : ¬ (2 ≤ s.len ∧ 2 ≤ T.busSize) := fun h => g ⟨h.1, h.2⟩
    exact ⟨s, by simp only [stage16, if_neg g], by simp [blockRest, g2], hinv,
      by simp [blockCalls, g2]⟩

theorem stage8_ok (T : Target) (d src L : Nat) (s : Locals)
    (hL : L < 2 ^ T.sizeBits) (hinv : s.totalOffset + s.len = L) :
    ∃ s1, stage8 T d src s = .ok s1 ∧
      callsOf s1.m.trace = callsOf s.m.trace ++ blockCalls T.busSize 1 s.len := by
  by_cases g : s.len ≠ 0 ∧ T.busSize ≥ sizeof_uint8
  · have g2 : 1 ≤ s.len ∧ 1 ≤ T.busSize := ⟨Nat.pos_of_ne_zero g.1, g.2⟩
    obtain ⟨m1, h1, h2⟩ := memcopy8_ok T (sizeAdd T d s.totalOffset)
      (sizeAdd T src s.totalOffset) s.len (by omega) s.m
    refine ⟨{ s with m := m1 }, ?_, ?_⟩
    · simp only [stage8, if_pos g, h1]
    · simp [blockCalls, g2, h2, Nat.mod_one]
  · have g2 : ¬ (1 ≤ s.len ∧ 1 ≤ T.busSize) := fun h => g ⟨Nat.ne_of_gt h.1, h.2⟩
    exact ⟨s, by simp only [stage8, if_neg g], by simp [blockCalls, g2]⟩

/-- For a non-zero length that fits `size_t` the four blocks end normally one after the
other; the value of `len` after each block and the invocations made are those of the
closed form. -/
theorem memcopy_stages (T : Target) (d src L : Nat) (m : Machine)
    (hL : L < 2 ^ T.sizeBits) (h0 : L ≠ 0) :
    ∃ s1 s2 s3 s4,
      stage64 T d src { len := L, totalOffset := 0, m := m } = .ok s1 ∧
      stage32 T d src L s1 = .ok s2 ∧
      stage16 T d src L s2 = .ok s3 ∧
      stage8 T d src s3 = .ok s4 ∧
      memcopy T d src L m = .ok (d, s4.m) ∧
      s1.len = blockRest T.busSize 8 L ∧
      s2.len = blockRest T.busSize 4 (blockRest T.busSize 8 L) ∧
      s3.len = blockRest T.busSize 2 (blockRest T.busSize 4 (blockRest T.busSize 8 L)) ∧
      callsOf s4.m.trace = callsOf m.trace ++ dispatchCalls T.busSize L := by
  obtain ⟨s1, e1, l1, i1, c1⟩ :=
    stage64_ok T d src { len := L, totalOffset := 0, m := m } hL rfl
  obtain ⟨s2, e2, l2, i2, c2⟩ := stage32_ok T d src L s1 hL i1
  obtain ⟨s3, e3, l3, i3, c3⟩ := stage16_ok T d src L s2 hL i2
  obtain ⟨s4, e4, c4⟩ := stage8_ok T d src L s3 hL i3
  have l1a : s1.len = blockRest T.busSize 8 L := l1
  have l2a : s2.len = blockRest T.busSize 4 (blockRest T.busSize 8 L) := by rw [l2, l1a]
  have l3a : s3.len =
      blockRest T.busSize 2 (blockRest T.busSize 4 (blockRest T.busSize 8 L)) := by
    rw [l3, l2a]
  refine ⟨s1, s2, s3, s4, e1, e2, e3, e4, ?_, l1a, l2a, l3a, ?_⟩
  · simp only [memcopy, if_neg h0, e1, e2, e3, e4]
  · rw [c4, c3, c2, c1, l3a, l2a, l1a]
    simp [dispatchCalls, List.append_assoc]

/-- For a non-zero length that fits `size_t`, `memcopy` ends normally, returns `a_dest`,
and invokes exactly the loops listed by `dispatchCalls`. -/
theorem memcopy_dispatch (T : Target) (d src L : Nat) (m : Machine)
    (hL : L < 2 ^ T.sizeBits) (h0 : L ≠ 0) :
    ∃ m1, memcopy T d src L m = .ok (d, m1) ∧
      callsOf m1.trace = callsOf m.trace ++ dispatchCalls T.busSize L := by
  obtain ⟨_, _, _, s4, _, _, _, _, h, _, _, _, hc⟩ := memcopy_stages T d src L m hL h0
  exact ⟨s4.m, h, hc⟩

/-! ## Facts about the closed form -/

theorem and_two_pow_ne_zero (x k : Nat) : x &&& 2 ^ k ≠ 0 ↔ x / 2 ^ k % 2 = 1 := by
  have key : x &&& 2 ^ k = if x.testBit k then 2 ^ k else 0 := by
    apply Nat.eq_of_testBit_eq
    intro j
    rw [Nat.testBit_and, Nat.testBit_two_pow]
    by_cases hk : k = j
    · subst hk
      by_cases hx : x.testBit k <;> simp [hx, Nat.testBit_two_pow_self]
    · by_cases hx : x.testBit k <;> simp [hx, hk, Nat.testBit_two_pow_of_ne hk]
  have hpos : 2 ^ k ≠ 0 := Nat.ne_of_gt (Nat.two_pow_pos k)
  rw [key, Nat.testBit_to_div_mod]
  by_cases h : x / 2 ^ k % 2 = 1 <;> simp [h, hpos]

theorem mem_blockCalls (B W0 len W n : Nat) (h : (W, n) ∈ blockCalls B W0 len) :
    W = W0 ∧ n = len - len % W0 ∧ W0 ≤ len ∧ W0 ≤ B := by
  unfold blockCalls at h
  split_ifs at h with g
  · simp only [List.mem_singleton, Prod.mk.injEq] at h
    exact ⟨h.1, h.2, g.1, g.2⟩
  · simp at h

theorem dispatchCalls_multiple (B L W n : Nat) (h : (W, n) ∈ dispatchCalls B L) :
    (W = 8 ∨ W = 4 ∨ W = 2 ∨ W = 1) ∧ n % W = 0 ∧ W ≤ B ∧ n ≠ 0 := by
  simp only [dispatchCalls, List.mem_append] at h
  rcases h with h | h | h | h <;>
    obtain ⟨rfl, rfl, h1, h2⟩ := mem_blockCalls _ _ _ _ _ h <;>
    refine ⟨by simp, ?_, h2, ?_⟩ <;> omega

theorem bytesGiven_append (W : Nat) (xs ys : List (Nat × Nat)) :
    bytesGiven W (xs ++ ys) = bytesGiven W xs + bytesGiven W ys := by
  simp [bytesGiven]

theorem bytesGiven_blockCalls (B W0 len W : Nat) :
    bytesGiven W (blockCalls B W0 len) =
      if W0 = W ∧ W0 ≤ len ∧ W0 ≤ B then len - len % W0 else 0 := by
  unfold bytesGiven blockCalls
  by_cases g : W0 ≤ len ∧ W0 ≤ B
  · by_cases e : W0 = W
    · subst e
      simp [g]
    · simp [g, e, List.filter]
  · have g1 : ¬ (W0 = W ∧ W0 ≤ len ∧ W0 ≤ B) := fun h => g h.2
    simp [g, g1]

theorem bytesGiven_dispatchCalls (B L W : Nat) :
    bytesGiven W (dispatchCalls B L) =
      (if 8 = W ∧ 8 ≤ L ∧ 8 ≤ B then L - L % 8 else 0) +
      ((if 4 = W ∧ 4 ≤ blockRest B 8 L ∧ 4 ≤ B then
          blockRest B 8 L - blockRest B 8 L % 4 else 0) +
       ((if 2 = W ∧ 2 ≤ blockRest B 4 (blockRest B 8 L) ∧ 2 ≤ B then
          blockRest B 4 (blockRest B 8 L) - blockRest B 4 (blockRest B 8 L) % 2 else 0) +
        (if 1 = W ∧ 1 ≤ blockRest B 2 (blockRest B 4 (blockRest B 8 L)) ∧ 1 ≤ B then
          blockRest B 2 (blockRest B 4 (blockRest B 8 L)) -
            blockRest B 2 (blockRest B 4 (blockRest B 8 L)) % 1 else 0))) := by
  simp only [dispatchCalls, bytesGiven_append, bytesGiven_blockCalls]

theorem bytesGiven_8 (B L : Nat) :
    bytesGiven 8 (dispatchCalls B L) = if 8 ≤ L ∧ 8 ≤ B then L - L % 8 else 0 := by
  rw [bytesGiven_dispatchCalls]
  simp

theorem bytesGiven_4 (B L : Nat) :
    bytesGiven 4 (dispatchCalls B L) =
      if 4 ≤ blockRest B 8 L ∧ 4 ≤ B then blockRest B 8 L - blockRest B 8 L % 4 else 0 := by
  rw [bytesGiven_dispatchCalls]
  simp

theorem bytesGiven_2 (B L : Nat) :
    bytesGiven 2 (dispatchCalls B L) =
      if 2 ≤ blockRest B 4 (blockRest B 8 L) ∧ 2 ≤ B then
        blockRest B 4 (blockRest B 8 L) - blockRest B 4 (blockRest B 8 L) % 2 else 0 := by
  rw [bytesGiven_dispatchCalls]
  simp

theorem bytesGiven_1 (B L : Nat) :
    bytesGiven 1 (dispatchCalls B L) =
      if 1 ≤ blockRest B 2 (blockRest B 4 (blockRest B 8 L)) ∧ 1 ≤ B then
        blockRest B 2 (blockRest B 4 (blockRest B 8 L)) else 0 := by
  rw [bytesGiven_dispatchCalls]
  simp [Nat.mod_one]

theorem invoked_append (W : Nat) (xs ys : List (Nat × Nat)) :
    invoked W (xs ++ ys) ↔ invoked W xs ∨ invoked W ys := by
  unfold invoked
  constructor
  · rintro ⟨n, h⟩
    rcases List.mem_append.1 h with h | h
    · exact Or.inl ⟨n, h⟩
    · exact Or.inr ⟨n, h⟩
  · rintro (⟨n, h⟩ | ⟨n, h⟩)
    · exact ⟨n, List.mem_append.2 (Or.inl h)⟩
    · exact ⟨n, List.mem_append.2 (Or.inr h)⟩

theorem invoked_blockCalls (B W0 len W : Nat) :
    invoked W (blockCalls B W0 len) ↔ W0 = W ∧ W0 ≤ len ∧ W0 ≤ B := by
  unfold invoked
  constructor
  · rintro ⟨n, h⟩
    obtain ⟨h1, _, h3, h4⟩ := mem_blockCalls _ _ _ _ _ h
    exact ⟨h1.symm, h3, h4⟩
  · rintro ⟨rfl, h3, h4⟩
    exact ⟨len - len % W0, by simp [blockCalls, h3, h4]⟩

theorem invoked_dispatchCalls (B L W : Nat) :
    invoked W (dispatchCalls B L) ↔
      (8 = W ∧ 8 ≤ L ∧ 8 ≤ B) ∨ (4 = W ∧ 4 ≤ blockRest B 8 L ∧ 4 ≤ B) ∨
      (2 = W ∧ 2 ≤ blockRest B 4 (blockRest B 8 L) ∧ 2 ≤ B) ∨
      (1 = W ∧ 1 ≤ blockRest B 2 (blockRest B 4 (blockRest B 8 L)) ∧ 1 ≤ B) := by
  simp only [dispatchCalls, invoked_append, invoked_blockCalls]

theorem dispatchCalls_sum (B L : Nat) (hB : 1 ≤ B) :
    ((dispatchCalls B L).map Prod.snd).sum = L := by
  unfold dispatchCalls blockCalls blockRest
  split_ifs <;> simp <;> omega

theorem dispatchCalls_bytesGiven_sum (B L : Nat) (hB : 1 ≤ B) :
    bytesGiven 8 (dispatchCalls B L) + bytesGiven 4 (dispatchCalls B L) +
      bytesGiven 2 (dispatchCalls B L) + bytesGiven 1 (dispatchCalls B L) = L := by
  rw [bytesGiven_8, bytesGiven_4, bytesGiven_2, bytesGiven_1]
  unfold blockRest
  split_ifs <;> omega

theorem dispatchCalls_invoked (B L : Nat) :
    (invoked 8 (dispatchCalls B L) ↔ 8 ≤ B ∧ 8 ≤ L) ∧
    (invoked 4 (dispatchCalls B L) ↔ 4 ≤ B ∧ 4 ≤ blockRest B 8 L) ∧
    (invoked 2 (dispatchCalls B L) ↔ 2 ≤ B ∧ 2 ≤ blockRest B 4 (blockRest B 8 L)) ∧
    (invoked 1 (dispatchCalls B L) ↔
      1 ≤ B ∧ 1 ≤ blockRest B 2 (blockRest B 4 (blockRest B 8 L))) := by
  simp only [invoked_dispatchCalls]
  refine ⟨?_, ?_, ?_, ?_⟩ <;> simp <;> tauto

theorem blockRest_eq (B L : Nat) :
    blockRest B 8 L = L - bytesGiven 8 (dispatchCalls B L) ∧
    blockRest B 4 (blockRest B 8 L) =
      L - bytesGiven 8 (dispatchCalls B L) - bytesGiven 4 (dispatchCalls B L) ∧
    blockRest B 2 (blockRest B 4 (blockRest B 8 L)) =
      L - bytesGiven 8 (dispatchCalls B L) - bytesGiven 4 (dispatchCalls B L)
        - bytesGiven 2 (dispatchCalls B L) := by
  simp only [bytesGiven_8, bytesGiven_4, bytesGiven_2]
  unfold blockRest
  refine ⟨?_, ?_, ?_⟩ <;> split_ifs <;> omega

theorem dispatchCalls_widest (B L : Nat) (hB : B = 1 ∨ B = 2 ∨ B = 4 ∨ B = 8) :
    bytesGiven B (dispatchCalls B L) = L - L % B := by
  rcases hB with h | h | h | h <;> subst h
  · rw [bytesGiven_1]; unfold blockRest; split_ifs <;> omega
  · rw [bytesGiven_2]; unfold blockRest; split_ifs <;> omega
  · rw [bytesGiven_4]; unfold blockRest; split_ifs <;> omega
  · rw [bytesGiven_8]; split_ifs <;> omega

theorem dispatchCalls_narrow (B L w : Nat) (hB : B = 1 ∨ B = 2 ∨ B = 4 ∨ B = 8)
    (hw : w = 1 ∨ w = 2 ∨ w = 4) (hlt : w < B) :
    bytesGiven w (dispatchCalls B L) = if L &&& w ≠ 0 then w else 0 := by
  have b1 := and_two_pow_ne_zero L 0
  have b2 := and_two_pow_ne_zero L 1
  have b4 := and_two_pow_ne_zero L 2
  simp only [Nat.pow_zero, Nat.pow_one, Nat.reducePow, Nat.div_one] at b1 b2 b4
  rcases hw with h | h | h <;> subst h
  · rw [bytesGiven_1]; unfold blockRest; simp only [b1]
    rcases hB with h | h | h | h <;> subst h <;> split_ifs <;> omega
  · rw [bytesGiven_2]; unfold blockRest; simp only [b2]
    rcases hB with h | h | h | h <;> subst h <;> split_ifs <;> omega
  · rw [bytesGiven_4]; unfold blockRest; simp only [b4]
    rcases hB with h | h | h | h <;> subst h <;> split_ifs <;> omega

/-- A run of `memcopy` from an empty trace, for any length that fits `size_t`: it ends
normally, and its invocations are none for length 0 and `dispatchCalls` otherwise. -/
theorem memcopy_run (T : Target) (d src L : Nat) (mem : Nat → Nat)
    (hL : L < 2 ^ T.sizeBits) :
    ∃ r m1, memcopy T d src L (start mem) = .ok (r, m1) ∧
      callsOf m1.trace = if L = 0 then [] else dispatchCalls T.busSize L := by
  by_cases h0 : L = 0
  · subst h0
    exact ⟨NULL, start mem, by simp [memcopy], by simp [start, callsOf]⟩
  · obtain ⟨m1, h1, h2⟩ := memcopy_dispatch T d src L (start mem) hL h0
    exact ⟨d, m1, h1, by simpa [start, callsOf, h0] using h2⟩

theorem dispatchCalls_zero (B : Nat) : dispatchCalls B 0 = [] := by
  simp [dispatchCalls, blockCalls, blockRest]

/-! ## The claims on the dispatcher -/

/-- C1 (full coverage) fails on the code: with bus size 8, copying 16 bytes from address
2000 to address 1000 leaves destination bytes 8..15 as they were.  `memcopy64` advances `c`
by `sizeof(uint64)` and then uses it as an element index, so its second assignment moves
the bytes at offsets 64..71 instead of 8..15. -/
theorem memcopy_full_coverage_fails :
    ∃ r m1, memcopy ⟨8, 64⟩ 1000 2000 16 (start idMem) = .ok (r, m1) ∧
      (∀ i, i < 8 → m1.mem (1000 + i) = idMem (2000 + i)) ∧
      (∀ i, 8 ≤ i → i < 16 → m1.mem (1000 + i) = idMem (1000 + i)) ∧
      m1.mem (1000 + 8) ≠ idMem (2000 + 8) :=
  ⟨_, _, rfl, by decide, by decide, by decide⟩

/-- C2 (destination frame) fails on the code: with bus size 2, copying 4 bytes from
address 2000 to address 1000 overwrites the bytes at destination offsets 4 and 5, which
lie outside `dest[0..4)`. -/
theorem memcopy_frame_fails :
    ∃ r m1, memcopy ⟨2, 64⟩ 1000 2000 4 (start idMem) = .ok (r, m1) ∧
      m1.mem (1000 + 4) ≠ idMem (1000 + 4) ∧ m1.mem (1000 + 5) ≠ idMem (1000 + 5) ∧
      m1.mem (1000 + 4) = idMem (2000 + 4) ∧ m1.mem (1000 + 5) = idMem (2000 + 5) :=
  ⟨_, _, rfl, by decide, by decide, by decide, by decide⟩

/-- C3 (zero-length return value) fails on the code: `memcopy(dest, src, 0)` executes
`return a_dest = NULL;` and so returns the null pointer, whatever `dest` is; at
`dest = 4096` the returned pointer differs from `dest`. -/
theorem memcopy_zero_returns_null :
    (∀ (T : Target) (d src : Nat) (m : Machine), memcopy T d src 0 m = .ok (NULL, m)) ∧
      ∃ r m1, memcopy ⟨8, 64⟩ 4096 8192 0 (start idMem) = .ok (r, m1) ∧ r = NULL ∧ r ≠ 4096 :=
  ⟨fun _ _ _ _ => rfl, _, _, rfl, rfl, by decide⟩

/-- C4 (return-value identity): for every target, every `dest`, `src`, every initial
machine and every non-zero length that fits `size_t`, `memcopy` ends normally and returns
exactly `dest`. -/
theorem memcopy_returns_dest (T : Target) (d src L : Nat) (m : Machine)
    (hL : L < 2 ^ T.sizeBits) (h0 : L ≠ 0) :
    ∃ m1, memcopy T d src L m = .ok (d, m1) := by
  obtain ⟨m1, h, _⟩ := memcopy_dispatch T d src L m hL h0
  exact ⟨m1, h⟩

theorem memcopy_returns_dest_witness :
    15 < 2 ^ 64 ∧ 15 ≠ 0 ∧
      ∃ m1, memcopy ⟨8, 64⟩ 1000 2000 15 (start idMem) = .ok (1000, m1) :=
  ⟨by decide, by decide,
    memcopy_returns_dest ⟨8, 64⟩ 1000 2000 15 (start idMem) (by decide) (by decide)⟩

/-- C5 (zero-length no-op): for every target and every initial machine,
`memcopy(dest, src, 0)` ends normally with the memory unchanged and the trace unchanged:
no width loop is invoked and no element is assigned. -/
theorem memcopy_zero_noop (T : Target) (d src : Nat) (m : Machine) :
    ∃ r m1, memcopy T d src 0 m = .ok (r, m1) ∧ m1.mem = m.mem ∧ m1.trace = m.trace ∧
      callsOf m1.trace = callsOf m.trace ∧ assignsOf m1.trace = assignsOf m.trace :=
  ⟨NULL, m, rfl, rfl, rfl, rfl, rfl⟩

/-- C6 (width-decomposition sum): for every bus size `B ≥ 1` and every length `L` that
fits `size_t`, `memcopy` ends normally and the byte counts it passed to the 8-, 4-, 2- and
1-byte loops (0 for a loop not invoked) add up to `L`; so does the sum over all
invocations. -/
theorem memcopy_chunks_sum (T : Target) (d src L : Nat) (mem : Nat → Nat)
    (hB : 1 ≤ T.busSize) (hL : L < 2 ^ T.sizeBits) :
    ∃ r m1, memcopy T d src L (start mem) = .ok (r, m1) ∧
      bytesGiven 8 (callsOf m1.trace) + bytesGiven 4 (callsOf m1.trace) +
        bytesGiven 2 (callsOf m1.trace) + bytesGiven 1 (callsOf m1.trace) = L ∧
      ((callsOf m1.trace).map Prod.snd).sum = L := by
  obtain ⟨r, m1, h, hc⟩ := memcopy_run T d src L mem hL
  refine ⟨r, m1, h, ?_, ?_⟩
  · by_cases h0 : L = 0
    · rw [hc, if_pos h0, h0]; rfl
    · rw [hc, if_neg h0]; exact dispatchCalls_bytesGiven_sum T.busSize L hB
  · by_cases h0 : L = 0
    · rw [hc, if_pos h0, h0]; rfl
    · rw [hc, if_neg h0]; exact dispatchCalls_sum T.busSize L hB

theorem memcopy_chunks_sum_witness :
    1 ≤ 8 ∧ 15 < 2 ^ 64 ∧
      ∃ r m1, memcopy ⟨8, 64⟩ 1000 2000 15 (start idMem) = .ok (r, m1) ∧
        bytesGiven 8 (callsOf m1.trace) + bytesGiven 4 (callsOf m1.trace) +
          bytesGiven 2 (callsOf m1.trace) + bytesGiven 1 (callsOf m1.trace) = 15 ∧
        ((callsOf m1.trace).map Prod.snd).sum = 15 :=
  ⟨by decide, by decide,
    memcopy_chunks_sum ⟨8, 64⟩ 1000 2000 15 idMem (by decide) (by decide)⟩

/-- C7 (chunk multiples, assertion validity): for every target and every length `L` that
fits `size_t`, `memcopy` ends normally (no assertion of `memcopy16/32/64` fails, no loop
runs out of fuel), every invocation is of a loop of width 8, 4, 2 or 1, and the byte count
it receives is an exact multiple of that width. -/
theorem memcopy_chunks_multiple (T : Target) (d src L : Nat) (mem : Nat → Nat)
    (hL : L < 2 ^ T.sizeBits) :
    ∃ r m1, memcopy T d src L (start mem) = .ok (r, m1) ∧
      ∀ W n, (W, n) ∈ callsOf m1.trace → (W = 8 ∨ W = 4 ∨ W = 2 ∨ W = 1) ∧ n % W = 0 := by
  obtain ⟨r, m1, h, hc⟩ := memcopy_run T d src L mem hL
  refine ⟨r, m1, h, ?_⟩
  intro W n hmem
  rw [hc] at hmem
  by_cases h0 : L = 0
  · simp [h0] at hmem
  · rw [if_neg h0] at hmem
    obtain ⟨h1, h2, _, _⟩ := dispatchCalls_multiple T.busSize L W n hmem
    exact ⟨h1, h2⟩

theorem memcopy_chunks_multiple_witness :
    15 < 2 ^ 64 ∧
      ∃ r m1, memcopy ⟨8, 64⟩ 1000 2000 15 (start idMem) = .ok (r, m1) ∧
        ∀ W n, (W, n) ∈ callsOf m1.trace → (W = 8 ∨ W = 4 ∨ W = 2 ∨ W = 1) ∧ n % W = 0 :=
  ⟨by decide, memcopy_chunks_multiple ⟨8, 64⟩ 1000 2000 15 idMem (by decide)⟩

/-- C8 (largest-first decomposition): for every bus size `B` in {1, 2, 4, 8} and every
length `L` that fits `size_t`, the loop of width `B` receives `L` rounded down to a
multiple of `B`, and each narrower loop of width `w < B` receives `w` bytes when
`L & w` is non-zero and nothing otherwise.  With `B = 8`, `L = 7` gives the invocations
(4-byte loop, 4), (2-byte loop, 2), (1-byte loop, 1) and `L = 15` gives (8, 8), (4, 4),
(2, 2), (1, 1), in this order. -/
theorem memcopy_largest_first (T : Target) (d src L : Nat) (mem : Nat → Nat)
    (hB : T.busSize = 1 ∨ T.busSize = 2 ∨ T.busSize = 4 ∨ T.busSize = 8)
    (hL : L < 2 ^ T.sizeBits) :
    ∃ r m1, memcopy T d src L (start mem) = .ok (r, m1) ∧
      bytesGiven T.busSize (callsOf m1.trace) = L - L % T.busSize ∧
      (∀ w, (w = 1 ∨ w = 2 ∨ w = 4) → w < T.busSize →
        bytesGiven w (callsOf m1.trace) = if L &&& w ≠ 0 then w else 0) ∧
      (T.busSize = 8 → L = 7 → callsOf m1.trace = [(4, 4), (2, 2), (1, 1)]) ∧
      (T.busSize = 8 → L = 15 → callsOf m1.trace = [(8, 8), (4, 4), (2, 2), (1, 1)]) := by
  obtain ⟨r, m1, h, hc⟩ := memcopy_run T d src L mem hL
  have hc1 : callsOf m1.trace = dispatchCalls T.busSize L := by
    by_cases h0 : L = 0
    · rw [hc, if_pos h0, h0, dispatchCalls_zero]
    · rw [hc, if_neg h0]
  refine ⟨r, m1, h, ?_, ?_, ?_, ?_⟩
  · rw [hc1]; exact dispatchCalls_widest T.busSize L hB
  · intro w hw hlt
    rw [hc1]; exact dispatchCalls_narrow T.busSize L w hB hw hlt
  · intro hb hl
    rw [hc1, hb, hl]; decide
  · intro hb hl
    rw [hc1, hb, hl]; decide

theorem memcopy_largest_first_witness :
    ((8 : Nat) = 1 ∨ (8 : Nat) = 2 ∨ (8 : Nat) = 4 ∨ (8 : Nat) = 8) ∧ 7 < 2 ^ 64 ∧
      ∃ r m1, memcopy ⟨8, 64⟩ 1000 2000 7 (start idMem) = .ok (r, m1) ∧
        bytesGiven 8 (callsOf m1.trace) = 7 - 7 % 8 ∧
        (∀ w, (w = 1 ∨ w = 2 ∨ w = 4) → w < 8 →
          bytesGiven w (callsOf m1.trace) = if 7 &&& w ≠ 0 then w else 0) ∧
        ((8 : Nat) = 8 → (7 : Nat) = 7 → callsOf m1.trace = [(4, 4), (2, 2), (1, 1)]) ∧
        ((8 : Nat) = 8 → (7 : Nat) = 15 →
          callsOf m1.trace = [(8, 8), (4, 4), (2, 2), (1, 1)]) :=
  ⟨by decide, by decide,
    memcopy_largest_first ⟨8, 64⟩ 1000 2000 7 idMem (by decide) (by decide)⟩

/-- C9 (skip rules): for every target and every length `L > 0` that fits `size_t`, the
four blocks of `memcopy` run one after the other (`s1`, `s2`, `s3` are the local variables
after the 8-, 4- and 2-byte blocks) and the loop of width `w` in {8, 4, 2, 1} is invoked if
and only if `w ≤ B` and the variable `len` is at least `w` when the block of width `w` is
reached; that value of `len` is `L` less the bytes given to the wider loops.  Hence
every invoked loop has width at most `B` and a non-zero byte count.  With `B = 8`, `L = 1`
invokes only `memcopy8` and `L = 1024` only `memcopy64`. -/
theorem memcopy_skip_rules (T : Target) (d src L : Nat) (mem : Nat → Nat)
    (hL : L < 2 ^ T.sizeBits) (h0 : 0 < L) :
    ∃ s1 s2 s3 s4,
      stage64 T d src { len := L, totalOffset := 0, m := start mem } = .ok s1 ∧
      stage32 T d src L s1 = .ok s2 ∧
      stage16 T d src L s2 = .ok s3 ∧
      stage8 T d src s3 = .ok s4 ∧
      memcopy T d src L (start mem) = .ok (d, s4.m) ∧
      (invoked 8 (callsOf s4.m.trace) ↔ 8 ≤ T.busSize ∧ 8 ≤ L) ∧
      (invoked 4 (callsOf s4.m.trace) ↔ 4 ≤ T.busSize ∧ 4 ≤ s1.len) ∧
      (invoked 2 (callsOf s4.m.trace) ↔ 2 ≤ T.busSize ∧ 2 ≤ s2.len) ∧
      (invoked 1 (callsOf s4.m.trace) ↔ 1 ≤ T.busSize ∧ 1 ≤ s3.len) ∧
      s1.len = L - bytesGiven 8 (callsOf s4.m.trace) ∧
      s2.len = L - bytesGiven 8 (callsOf s4.m.trace) - bytesGiven 4 (callsOf s4.m.trace) ∧
      s3.len = L - bytesGiven 8 (callsOf s4.m.trace) - bytesGiven 4 (callsOf s4.m.trace)
        - bytesGiven 2 (callsOf s4.m.trace) ∧
      (∀ W n, (W, n) ∈ callsOf s4.m.trace → W ≤ T.busSize ∧ n ≠ 0) ∧
      (T.busSize = 8 → L = 1 → callsOf s4.m.trace = [(1, 1)]) ∧
      (T.busSize = 8 → L = 1024 → callsOf s4.m.trace = [(8, 1024)]) := by
  obtain ⟨s1, s2, s3, s4, e1, e2, e3, e4, h, l1, l2, l3, hc⟩ :=
    memcopy_stages T d src L (start mem) hL (Nat.ne_of_gt h0)
  have hc1 : callsOf s4.m.trace = dispatchCalls T.busSize L := by
    simpa [start, callsOf] using hc
  obtain ⟨i8, i4, i2, i1⟩ := dispatchCalls_invoked T.busSize L
  obtain ⟨r8, r4, r2⟩ := blockRest_eq T.busSize L
  refine ⟨s1, s2, s3, s4, e1, e2, e3, e4, h, ?_, ?_, ?_, ?_, ?_, ?_, ?_, ?_, ?_, ?_⟩
  · rw [hc1]; exact i8
  · rw [hc1, l1]; exact i4
  · rw [hc1, l2]; exact i2
  · rw [hc1, l3]; exact i1
  · rw [hc1, l1]; exact r8
  · rw [hc1, l2]; exact r4
  · rw [hc1, l3]; exact r2
  · intro W n hmem
    rw [hc1] at hmem
    obtain ⟨_, _, h3, h4⟩ := dispatchCalls_multiple T.busSize L W n hmem
    exact ⟨h3, h4⟩
  · intro hb hl
    rw [hc1, hb, hl]; decide
  · intro hb hl
    rw [hc1, hb, hl]; decide

theorem memcopy_skip_rules_witness :
    1024 < 2 ^ 64 ∧ 0 < 1024 ∧
      ∃ s1 s2 s3 s4,
        stage64 ⟨8, 64⟩ 1000 2000 { len := 1024, totalOffset := 0, m := start idMem } = .ok s1 ∧
        stage32 ⟨8, 64⟩ 1000 2000 1024 s1 = .ok s2 ∧
        stage16 ⟨8, 64⟩ 1000 2000 1024 s2 = .ok s3 ∧
        stage8 ⟨8, 64⟩ 1000 2000 s3 = .ok s4 ∧
        memcopy ⟨8, 64⟩ 1000 2000 1024 (start idMem) = .ok (1000, s4.m) ∧
        (invoked 8 (callsOf s4.m.trace) ↔ 8 ≤ 8 ∧ 8 ≤ 1024) ∧
        (invoked 4 (callsOf s4.m.trace) ↔ 4 ≤ 8 ∧ 4 ≤ s1.len) ∧
        (invoked 2 (callsOf s4.m.trace) ↔ 2 ≤ 8 ∧ 2 ≤ s2.len) ∧
        (invoked 1 (callsOf s4.m.trace) ↔ 1 ≤ 8 ∧ 1 ≤ s3.len) ∧
        s1.len = 1024 - bytesGiven 8 (callsOf s4.m.trace) ∧
        s2.len = 1024 - bytesGiven 8 (callsOf s4.m.trace)
          - bytesGiven 4 (callsOf s4.m.trace) ∧
        s3.len = 1024 - bytesGiven 8 (callsOf s4.m.trace)
          - bytesGiven 4 (callsOf s4.m.trace) - bytesGiven 2 (callsOf s4.m.trace) ∧
        (∀ W n, (W, n) ∈ callsOf s4.m.trace → W ≤ 8 ∧ n ≠ 0) ∧
        ((8 : Nat) = 8 → (1024 : Nat) = 1 → callsOf s4.m.trace = [(1, 1)]) ∧
        ((8 : Nat) = 8 → (1024 : Nat) = 1024 → callsOf s4.m.trace = [(8, 1024)]) :=
  ⟨by decide, by decide,
    memcopy_skip_rules ⟨8, 64⟩ 1000 2000 1024 idMem (by decide) (by decide)⟩

/-- C10 (in-bounds access) fails on the code: with bus size 4, copying 8 bytes between
regions of exactly 8 bytes at addresses 1000 (dest) and 2000 (src), the second assignment of
`memcopy32` reads the source bytes at offsets 16..19 and writes the destination bytes at
offsets 16..19, all beyond the 8-byte regions. -/
theorem memcopy_out_of_bounds :
    ∃ r m1, memcopy ⟨4, 32⟩ 1000 2000 8 (start idMem) = .ok (r, m1) ∧
      assignsOf m1.trace = [(1000, 2000, 4), (1000 + 16, 2000 + 16, 4)] ∧
      (∃ a ∈ assignsOf m1.trace, 1000 + 8 ≤ a.1 ∧ 2000 + 8 ≤ a.2.1) :=
  ⟨_, _, rfl, by decide, by decide⟩

/-! ## Exact result of the loops -/

theorem elemsFrom_shift (W d s : Nat) (k : Nat) :
    ∀ (j : Nat) (m : Machine), elemsFrom W d s j (k + 1) m =
      elemsFrom W d s (j + 1) k (assignElem W (d + j * W * W) (s + j * W * W) m) := by
  induction k with
  | zero => intro j m; rfl
  | succ k ih =>
    intro j m
    have e : j + (k + 1) = j + 1 + k := by omega
    show assignElem W (d + (j + (k + 1)) * W * W) (s + (j + (k + 1)) * W * W)
        (elemsFrom W d s j (k + 1) m) = _
    rw [ih j m, e]
    rfl

/-- Started at counter value `j * W` with `k` elements left and enough fuel, the loop ends
normally after exactly the assignments `j, .., j+k-1`. -/
theorem copyLoop_run (T : Target) (W d s n : Nat) (hW : 0 < W) (hn : n < 2 ^ T.sizeBits) :
    ∀ (k fuel j : Nat) (m : Machine), n = (j + k) * W → k ≤ fuel →
      copyLoop T W d s n fuel (j * W) m = .ok (elemsFrom W d s j k m) := by
  intro k
  induction k with
  | zero =>
    intro fuel j m hc _
    have hlt : ¬ j * W < n := by rw [hc]; simp
    cases fuel with
    | zero => simp [copyLoop, hlt, elemsFrom]
    | succ f => simp [copyLoop, hlt, elemsFrom]
  | succ k ih =>
    intro fuel j m hc hf
    have e1 : (j + (k + 1)) * W = j * W + k * W + W := by
      rw [← Nat.add_assoc, Nat.add_mul, Nat.add_mul, Nat.one_mul]
    have e2 : (j + 1 + k) * W = j * W + k * W + W := by
      rw [Nat.add_mul, Nat.add_mul, Nat.one_mul]; omega
    have e3 : (j + 1) * W = j * W + W := by rw [Nat.add_mul, Nat.one_mul]
    have hlt : j * W < n := by omega
    cases fuel with
    | zero => omega
    | succ f =>
      have hadd : sizeAdd T (j * W) W = (j + 1) * W := by
        rw [sizeAdd_of_lt T _ _ (by omega), e3]
      have h := ih f (j + 1) (assignElem W (d + j * W * W) (s + j * W * W) m)
        (by omega) (by omega)
      simp only [copyLoop, hlt, if_true, hadd]
      rw [h, elemsFrom_shift]

/-- A loop of width `W > 0` given a multiple `n` of `W` ends normally in `loopRun`. -/
theorem copyLoop_exact (T : Target) (W d s n : Nat) (hW : 0 < W)
    (hn : n < 2 ^ T.sizeBits) (hdiv : n % W = 0) (m : Machine) :
    copyLoop T W d s n n 0 (enter W d s n m) = .ok (loopRun W d s n m) := by
  have hk : n = (0 + n / W) * W := by
    have := Nat.div_add_mod n W
    rw [hdiv, Nat.mul_comm] at this
    rw [Nat.zero_add]
    omega
  have h := copyLoop_run T W d s n hW hn (n / W) n 0 (enter W d s n m) hk
    (Nat.div_le_self n W)
  rw [Nat.zero_mul] at h
  exact h

theorem memcopy8_run (T : Target) (d s n : Nat) (hn : n < 2 ^ T.sizeBits) (m : Machine) :
    memcopy8 T d s n m = .ok (d, loopRun 1 d s n m) := by
  have h := copyLoop_exact T sizeof_uint8 d s n (by decide) hn (Nat.mod_one n) m
  simp only [memcopy8, h]
  rfl

theorem memcopy16_run (T : Target) (d s n : Nat) (hn : n < 2 ^ T.sizeBits)
    (hdiv : n % 2 = 0) (m : Machine) :
    memcopy16 T d s n m = .ok (d, loopRun 2 d s n m) := by
  have h := copyLoop_exact T sizeof_uint16 d s n (by decide) hn hdiv m
  have hmask : n &&& 0x1 = 0 := by
    rw [show (0x1 : Nat) = 2 ^ 1 - 1 from rfl, Nat.and_pow_two_sub_one_eq_mod]
    exact hdiv
  simp only [memcopy16, h, hmask]
  rfl

theorem memcopy32_run (T : Target) (d s n : Nat) (hn : n < 2 ^ T.sizeBits)
    (hdiv : n % 4 = 0) (m : Machine) :
    memcopy32 T d s n m = .ok (d, loopRun 4 d s n m) := by
  have h := copyLoop_exact T sizeof_uint32 d s n (by decide) hn hdiv m
  have hmask : n &&& 0x3 = 0 := by
    rw [show (0x3 : Nat) = 2 ^ 2 - 1 from rfl, Nat.and_pow_two_sub_one_eq_mod]
    exact hdiv
  simp only [memcopy32, h, hmask]
  rfl

theorem memcopy64_run (T : Target) (d s n : Nat) (hn : n < 2 ^ T.sizeBits)
    (hdiv : n % 8 = 0) (m : Machine) :
    memcopy64 T d s n m = .ok (d, loopRun 8 d s n m) := by
  have h := copyLoop_exact T sizeof_uint64 d s n (by decide) hn hdiv m
  have hmask : n &&& 0x7 = 0 := by
    rw [show (0x7 : Nat) = 2 ^ 3 - 1 from rfl, Nat.and_pow_two_sub_one_eq_mod]
    exact hdiv
  simp only [memcopy64, h, hmask]
  rfl

/-! ## Traces and memory of the closed form -/

theorem assignsOf_append (xs ys : List Event) :
    assignsOf (xs ++ ys) = assignsOf xs ++ assignsOf ys := by
  induction xs with
  | nil => rfl
  | cons e es ih =>
    cases e with
    | call W d s n => simp [assignsOf, ih]
    | assign W d s => simp [assignsOf, ih]

theorem callArgs_append (xs ys : List Event) :
    callArgs (xs ++ ys) = callArgs xs ++ callArgs ys := by
  induction xs with
  | nil => rfl
  | cons e es ih =>
    cases e with
    | call W d s n => simp [callArgs, ih]
    | assign W d s => simp [callArgs, ih]

theorem assignsOf_elemsFrom (W d s j : Nat) (m : Machine) :
    ∀ k, assignsOf (elemsFrom W d s j k m).trace =
      assignsOf m.trace ++
        (List.range k).map (fun i => (d + (j + i) * W * W, s + (j + i) * W * W, W)) := by
  intro k
  induction k with
  | zero => simp [elemsFrom]
  | succ k ih =>
    simp only [elemsFrom, assignElem, assignsOf_append, ih, List.range_succ, List.map_append,
      List.map_singleton, List.append_assoc]
    rfl

theorem callsOf_elemsFrom (W d s j : Nat) (m : Machine) :
    ∀ k, callsOf (elemsFrom W d s j k m).trace = callsOf m.trace := by
  intro k
  induction k with
  | zero => rfl
  | succ k ih => simp only [elemsFrom, callsOf_assignElem, ih]

theorem callArgs_elemsFrom (W d s j : Nat) (m : Machine) :
    ∀ k, callArgs (elemsFrom W d s j k m).trace = callArgs m.trace := by
  intro k
  induction k with
  | zero => rfl
  | succ k ih =>
    simp only [elemsFrom, assignElem, callArgs_append, ih]
    simp [callArgs]

theorem assignsOf_loopRun (W d s n : Nat) (m : Machine) :
    assignsOf (loopRun W d s n m).trace =
      assignsOf m.trace ++
        (List.range (n / W)).map (fun i => (d + i * W * W, s + i * W * W, W)) := by
  simp [loopRun, assignsOf_elemsFrom, enter, assignsOf_append, assignsOf]

theorem callsOf_loopRun (W d s n : Nat) (m : Machine) :
    callsOf (loopRun W d s n m).trace = callsOf m.trace ++ [(W, n)] := by
  simp [loopRun, callsOf_elemsFrom, callsOf_enter]

theorem callArgs_loopRun (W d s n : Nat) (m : Machine) :
    callArgs (loopRun W d s n m).trace = callArgs m.trace ++ [(W, d, s, n)] := by
  simp [loopRun, callArgs_elemsFrom, enter, callArgs_append, callArgs]

/-- Bytes outside the elements written by the assignments keep their value. -/
theorem elemsFrom_mem_frame (W d s j : Nat) (m : Machine) (a : Nat) :
    ∀ k, (∀ i, i < k → ¬ (d + (j + i) * W * W ≤ a ∧ a < d + (j + i) * W * W + W)) →
      (elemsFrom W d s j k m).mem a = m.mem a := by
  intro k
  induction k with
  | zero => intro _; rfl
  | succ k ih =>
    intro h
    have hk := h k (Nat.lt_succ_self k)
    have hrec := ih (fun i hi => h i (Nat.lt_succ_of_lt hi))
    show (if d + (j + k) * W * W ≤ a ∧ a < d + (j + k) * W * W + W then _ else _) = _
    rw [if_neg hk]
    exact hrec

theorem enter_mem (W d s n : Nat) (m : Machine) : (enter W d s n m).mem = m.mem := rfl

/-- When the bytes read and the bytes written by the first `k` assignments lie in
disjoint address ranges, every written byte holds the original source byte. -/
theorem elemsFrom_mem_copied (W d s : Nat) (m : Machine) (hW : 0 < W) :
    ∀ k, (d + k * (W * W) ≤ s ∨ s + k * (W * W) ≤ d) →
      ∀ i t, i < k → t < W →
        (elemsFrom W d s 0 k m).mem (d + i * W * W + t) = m.mem (s + i * W * W + t) := by
  have hWS : W ≤ W * W := Nat.le_mul_of_pos_left W hW
  intro k
  induction k with
  | zero => intro _ i t hi _; omega
  | succ k ih =>
    intro hdis i t hi ht
    have hS : (k + 1) * (W * W) = k * (W * W) + W * W := Nat.succ_mul k (W * W)
    have hik : i * W * W = i * (W * W) := Nat.mul_assoc i W W
    have hkk : (0 + k) * W * W = k * (W * W) := by rw [Nat.zero_add, Nat.mul_assoc]
    show (if d + (0 + k) * W * W ≤ d + i * W * W + t ∧
        d + i * W * W + t < d + (0 + k) * W * W + W then _ else _) = _
    rw [hkk, hik]
    by_cases hi2 : i = k
    · subst hi2
      rw [if_pos ⟨Nat.le_add_right _ _, by omega⟩]
      have e : s + i * (W * W) + (d + i * (W * W) + t - (d + i * (W * W))) =
          s + i * (W * W) + t := by omega
      rw [e]
      apply elemsFrom_mem_frame
      intro i2 hi2
      have h2 : (i2 + 1) * (W * W) ≤ i * (W * W) := Nat.mul_le_mul_right _ hi2
      have h3 : (i2 + 1) * (W * W) = i2 * (W * W) + W * W := Nat.succ_mul i2 (W * W)
      have h4 : (0 + i2) * W * W = i2 * (W * W) := by rw [Nat.zero_add, Nat.mul_assoc]
      rw [h4]
      omega
    · have hlt : i < k := by omega
      have h2 : (i + 1) * (W * W) ≤ k * (W * W) := Nat.mul_le_mul_right _ hlt
      have h3 : (i + 1) * (W * W) = i * (W * W) + W * W := Nat.succ_mul i (W * W)
      rw [if_neg (by omega)]
      have := ih (by omega) i t hlt ht
      rw [hik] at this
      exact this

theorem loopRun_accessPattern (W d s n : Nat) (m : Machine) (hW : 0 < W) :
    AccessPattern W d s n m (.ok (d, loopRun W d s n m)) := by
  refine ⟨loopRun W d s n m, rfl, assignsOf_loopRun W d s n m, ?_, ?_, ?_⟩
  · rw [assignsOf_loopRun]; simp
  · intro a h
    have := elemsFrom_mem_frame W d s 0 (enter W d s n m) a (n / W)
      (fun i hi => by rw [Nat.zero_add]; exact h i hi)
    exact this
  · intro hdis k t hk ht
    exact elemsFrom_mem_copied W d s (enter W d s n m) hW (n / W) hdis k t hk ht

/-- The loop itself never reports a failed assertion. -/
theorem copyLoop_no_assertion (T : Target) (W d s n : Nat) :
    ∀ (fuel c : Nat) (m : Machine), copyLoop T W d s n fuel c m ≠ .error .assertion := by
  intro fuel
  induction fuel with
  | zero =>
    intro c m
    unfold copyLoop
    split_ifs <;> simp
  | succ f ih =>
    intro c m
    unfold copyLoop
    split_ifs
    · exact ih _ _
    · simp

/-! ## The claims on the width loops -/

/-- C11 (contract of the wide loops) fails on the code: `memcopy16(dest, src, 4)` with
`dest = 1000`, `src = 2000` returns `dest` and makes `4 / 2 = 2` element assignments, but
the second one moves element 2 (bytes 4..5) and not element 1 (bytes 2..3): `dest[2]`
and `dest[3]` keep their old values, so `dest[0..4)` differs from the original
`src[0..4)`. -/
theorem memcopy16_contract_fails :
    ∃ r m1, memcopy16 ⟨8, 64⟩ 1000 2000 4 (start idMem) = .ok (r, m1) ∧ r = 1000 ∧
      assignsOf m1.trace = [(1000, 2000, 2), (1000 + 2 * 2, 2000 + 2 * 2, 2)] ∧
      m1.mem (1000 + 2) = idMem (1000 + 2) ∧ m1.mem (1000 + 3) = idMem (1000 + 3) ∧
      m1.mem (1000 + 2) ≠ idMem (2000 + 2) ∧ m1.mem (1000 + 3) ≠ idMem (2000 + 3) :=
  ⟨_, _, rfl, rfl, by decide, by decide, by decide, by decide, by decide⟩

/-- C12 (byte loop contract): for every byte count `n` that fits `size_t` and every
machine in which `dest[0..n)` and `src[0..n)` do not overlap, `memcopy8(dest, src, n)` ends
normally and returns `dest`; its element assignments are `dest[i] = src[i]` for
`i = 0, 1, .., n-1` in this order; afterwards `dest[i]` holds the original `src[i]` for
every `i < n` and every byte outside `dest[0..n)` is unchanged. -/
theorem memcopy8_contract (T : Target) (d s n : Nat) (m : Machine)
    (hn : n < 2 ^ T.sizeBits) (hdis : d + n ≤ s ∨ s + n ≤ d) :
    ∃ m1, memcopy8 T d s n m = .ok (d, m1) ∧
      assignsOf m1.trace = assignsOf m.trace ++ (List.range n).map (fun i => (d + i, s + i, 1)) ∧
      (∀ i, i < n → m1.mem (d + i) = m.mem (s + i)) ∧
      (∀ a, ¬ (d ≤ a ∧ a < d + n) → m1.mem a = m.mem a) := by
  obtain ⟨m1, h1, h2, _, h4, h5⟩ := loopRun_accessPattern 1 d s n m (by decide)
  simp only [Nat.div_one, Nat.mul_one] at h2 h4 h5
  obtain ⟨rfl⟩ : loopRun 1 d s n m = m1 := by
    have := Except.ok.inj h1
    exact (Prod.mk.inj this).2
  refine ⟨_, memcopy8_run T d s n hn m, h2, ?_, ?_⟩
  · intro i hi
    have := h5 hdis i 0 hi (by decide)
    simpa using this
  · intro a ha
    apply h4
    intro k hk hc
    exact ha ⟨by omega, by omega⟩

theorem memcopy8_contract_witness :
    3 < 2 ^ 64 ∧ (1000 + 3 ≤ 2000 ∨ 2000 + 3 ≤ 1000) ∧
      ∃ m1, memcopy8 ⟨8, 64⟩ 1000 2000 3 (start idMem) = .ok (1000, m1) ∧
        assignsOf m1.trace = assignsOf (start idMem).trace ++
          (List.range 3).map (fun i => (1000 + i, 2000 + i, 1)) ∧
        (∀ i, i < 3 → m1.mem (1000 + i) = (start idMem).mem (2000 + i)) ∧
        (∀ a, ¬ (1000 ≤ a ∧ a < 1000 + 3) → m1.mem a = (start idMem).mem a) :=
  ⟨by decide, by decide,
    memcopy8_contract ⟨8, 64⟩ 1000 2000 3 (start idMem) (by decide) (by decide)⟩

/-- C13 (source is not mutated) fails on the code: with bus size 8, copying 16 bytes from
`src = 1064` to `dest = 1000` (regions `[1000, 1016)` and `[1064, 1080)`, which do not
overlap), the second assignment of `memcopy64` writes the 8 bytes at `dest + 64 = src`,
so `src[0..8)` is overwritten with the bytes found at `src + 64`. -/
theorem memcopy_mutates_source :
    ∃ r m1, memcopy ⟨8, 64⟩ 1000 1064 16 (start idMem) = .ok (r, m1) ∧
      (1000 + 16 ≤ 1064 ∨ 1064 + 16 ≤ 1000) ∧
      (∀ i, i < 8 → m1.mem (1064 + i) ≠ idMem (1064 + i)) ∧
      (∀ i, i < 8 → m1.mem (1064 + i) = idMem (1064 + 64 + i)) :=
  ⟨_, _, rfl, by decide, by decide, by decide⟩

/-- C14 (idempotence) fails on the code: with bus size 8, `dest = 1000`, `src = 1128`,
`L = 65` (regions that do not overlap) and a memory that is 0 except for a 1 at address
1448, the first call leaves `src[0..65)` as it was and `dest[64] = 0`; the second call,
with the same arguments and nothing done in between, ends with `dest[64] = 1`.  The
out-of-range assignments of `memcopy64` carry the 1 two elements down at every call. -/
theorem memcopy_not_idempotent :
    ∃ r1 m1 r2 m2, memcopy ⟨8, 64⟩ 1000 1128 65 (start spikeMem) = .ok (r1, m1) ∧
      memcopy ⟨8, 64⟩ 1000 1128 65 m1 = .ok (r2, m2) ∧
      (1000 + 65 ≤ 1128 ∨ 1128 + 65 ≤ 1000) ∧
      (∀ i, i < 65 → m1.mem (1128 + i) = spikeMem (1128 + i)) ∧
      m1.mem (1000 + 64) = 0 ∧ m2.mem (1000 + 64) = 1 ∧
      m2.mem (1000 + 64) ≠ m1.mem (1000 + 64) :=
  ⟨_, _, _, _, rfl, rfl, by decide, by decide, by decide, by decide, by decide⟩

/-- C16 (precondition check): for every byte count `n` that fits `size_t`, `memcopy16`,
`memcopy32` and `memcopy64` called directly end with a failed assertion if and only if
`n` is not a multiple of 2, 4 and 8 respectively; the masks `0x1`, `0x3`, `0x7` agree with
the divisibility tests; and `memcopy8` ends normally, returning `dest`. -/
theorem assertion_iff_not_multiple (T : Target) (d s n : Nat) (m : Machine)
    (hn : n < 2 ^ T.sizeBits) :
    (memcopy16 T d s n m = .error .assertion ↔ n % 2 ≠ 0) ∧
    (memcopy32 T d s n m = .error .assertion ↔ n % 4 ≠ 0) ∧
    (memcopy64 T d s n m = .error .assertion ↔ n % 8 ≠ 0) ∧
    (n &&& 0x1 = 0 ↔ n % 2 = 0) ∧ (n &&& 0x3 = 0 ↔ n % 4 = 0) ∧
    (n &&& 0x7 = 0 ↔ n % 8 = 0) ∧
    (∃ m1, memcopy8 T d s n m = .ok (d, m1)) ∧
    memcopy8 T d s n m ≠ .error .assertion := by
  have k1 : n &&& 0x1 = n % 2 := Nat.and_pow_two_sub_one_eq_mod n 1
  have k3 : n &&& 0x3 = n % 4 := Nat.and_pow_two_sub_one_eq_mod n 2
  have k7 : n &&& 0x7 = n % 8 := Nat.and_pow_two_sub_one_eq_mod n 3
  refine ⟨?_, ?_, ?_, by rw [k1], by rw [k3], by rw [k7],
    ⟨_, memcopy8_run T d s n hn m⟩, by rw [memcopy8_run T d s n hn m]; simp⟩
  · by_cases h : n % 2 = 0
    · rw [memcopy16_run T d s n hn h m]; simp [h]
    · have hk : n &&& 0x1 ≠ 0 := by rw [k1]; exact h
      simp [memcopy16, hk, h]
  · by_cases h : n % 4 = 0
    · rw [memcopy32_run T d s n hn h m]; simp [h]
    · have hk : n &&& 0x3 ≠ 0 := by rw [k3]; exact h
      simp [memcopy32, hk, h]
  · by_cases h : n % 8 = 0
    · rw [memcopy64_run T d s n hn h m]; simp [h]
    · have hk : n &&& 0x7 ≠ 0 := by rw [k7]; exact h
      simp [memcopy64, hk, h]

theorem assertion_iff_not_multiple_witness :
    6 < 2 ^ 64 ∧
      (memcopy16 ⟨8, 64⟩ 1000 2000 6 (start idMem) = .error .assertion ↔ 6 % 2 ≠ 0) ∧
      (memcopy32 ⟨8, 64⟩ 1000 2000 6 (start idMem) = .error .assertion ↔ 6 % 4 ≠ 0) ∧
      (memcopy64 ⟨8, 64⟩ 1000 2000 6 (start idMem) = .error .assertion ↔ 6 % 8 ≠ 0) ∧
      (6 &&& 0x1 = 0 ↔ 6 % 2 = 0) ∧ (6 &&& 0x3 = 0 ↔ 6 % 4 = 0) ∧
      (6 &&& 0x7 = 0 ↔ 6 % 8 = 0) ∧
      (∃ m1, memcopy8 ⟨8, 64⟩ 1000 2000 6 (start idMem) = .ok (1000, m1)) ∧
      memcopy8 ⟨8, 64⟩ 1000 2000 6 (start idMem) ≠ .error .assertion :=
  ⟨by decide, assertion_iff_not_multiple ⟨8, 64⟩ 1000 2000 6 (start idMem) (by decide)⟩

/-- C19 (actual access pattern of the wide loops): for every byte count `n` that fits
`size_t` and is a multiple of the element width `W` (2, 4, 8 for `memcopy16`, `memcopy32`,
`memcopy64`), the loop ends normally, returns `dest` and makes exactly `n / W` element
assignments; assignment number `k` moves the `W` bytes at byte offset `k * W * W` of `src`
to byte offset `k * W * W` of `dest`; all other bytes are left unchanged. -/
theorem wide_loops_access_pattern (T : Target) (d s n : Nat) (m : Machine)
    (hn : n < 2 ^ T.sizeBits) :
    (n % 2 = 0 → AccessPattern 2 d s n m (memcopy16 T d s n m)) ∧
    (n % 4 = 0 → AccessPattern 4 d s n m (memcopy32 T d s n m)) ∧
    (n % 8 = 0 → AccessPattern 8 d s n m (memcopy64 T d s n m)) := by
  refine ⟨fun h => ?_, fun h => ?_, fun h => ?_⟩
  · rw [memcopy16_run T d s n hn h m]
    exact loopRun_accessPattern 2 d s n m (by decide)
  · rw [memcopy32_run T d s n hn h m]
    exact loopRun_accessPattern 4 d s n m (by decide)
  · rw [memcopy64_run T d s n hn h m]
    exact loopRun_accessPattern 8 d s n m (by decide)

theorem wide_loops_access_pattern_witness :
    16 < 2 ^ 64 ∧ 16 % 2 = 0 ∧ 16 % 4 = 0 ∧ 16 % 8 = 0 ∧
      AccessPattern 2 1000 2000 16 (start idMem)
        (memcopy16 ⟨8, 64⟩ 1000 2000 16 (start idMem)) ∧
      AccessPattern 4 1000 2000 16 (start idMem)
        (memcopy32 ⟨8, 64⟩ 1000 2000 16 (start idMem)) ∧
      AccessPattern 8 1000 2000 16 (start idMem)
        (memcopy64 ⟨8, 64⟩ 1000 2000 16 (start idMem)) :=
  ⟨by decide, by decide, by decide, by decide,
    (wide_loops_access_pattern ⟨8, 64⟩ 1000 2000 16 (start idMem) (by decide)).1 (by decide),
    (wide_loops_access_pattern ⟨8, 64⟩ 1000 2000 16 (start idMem) (by decide)).2.1 (by decide),
    (wide_loops_access_pattern ⟨8, 64⟩ 1000 2000 16 (start idMem) (by decide)).2.2 (by decide)⟩

/-! ## Exact result of the dispatcher -/

theorem blockRest_le (B W len : Nat) (hW : 0 < W) : blockRest B W len ≤ len := by
  unfold blockRest
  split_ifs
  · exact Nat.le_of_lt (Nat.lt_of_lt_of_le (Nat.mod_lt len hW) (by omega))
  · exact Nat.le_refl len

theorem stage64_run (T : Target) (d src : Nat) (s : Locals)
    (hlen : s.len < 2 ^ T.sizeBits) (hoff : s.totalOffset = 0) :
    stage64 T d src s = .ok
      { len := blockRest T.busSize 8 s.len
        totalOffset := s.len - blockRest T.busSize 8 s.len
        m := blockRun T.busSize 8 d src s.len s.m } := by
  by_cases g : s.len > 0b111 ∧ T.busSize ≥ sizeof_uint64
  · have g1 : 7 < s.len := g.1
    have g2 : 8 ≤ s.len ∧ 8 ≤ T.busSize := ⟨g.1, g.2⟩
    have hoffset : s.len &&& sizeNot T 0b111 = s.len - s.len % 8 := and_sizeNot_7 T s.len hlen g1
    have h1 := memcopy64_run T d src (s.len - s.len % 8) (by omega) (by omega) s.m
    have hadd : sizeAdd T s.totalOffset (s.len - s.len % 8) = s.len - s.len % 8 := by
      rw [hoff, sizeAdd_of_lt T 0 _ (by omega)]; omega
    have hsub : sizeSub T s.len (s.len - s.len % 8) = s.len % 8 := by
      rw [sizeSub_of_le T _ _ (by omega) hlen]; omega
    simp only [stage64, if_pos g, hoffset, h1, hadd, hsub, blockRest, blockRun, if_pos g2]
  · have g2 : ¬ (8 ≤ s.len ∧ 8 ≤ T.busSize) := fun h => g ⟨h.1, h.2⟩
    obtain ⟨len, off, m⟩ := s
    simp only at hoff
    subst hoff
    simp only [stage64, if_neg g, blockRest, blockRun, if_neg g2, Nat.sub_self]

theorem stage32_run (T : Target) (d src L : Nat) (s : Locals)
    (hL : L < 2 ^ T.sizeBits) (hinv : s.totalOffset + s.len = L) :
    stage32 T d src L s = .ok
      { len := blockRest T.busSize 4 s.len
        totalOffset := L - blockRest T.busSize 4 s.len
        m := blockRun T.busSize 4 (sizeAdd T d s.totalOffset) (sizeAdd T src s.totalOffset)
          s.len s.m } := by
  by_cases g : s.len > 0b11 ∧ T.busSize ≥ sizeof_uint32
  · have g1 : 3 < s.len := g.1
    have g2 : 4 ≤ s.len ∧ 4 ≤ T.busSize := ⟨g.1, g.2⟩
    have hoffset : s.len &&& sizeNot T 0b11 = s.len - s.len % 4 :=
      and_sizeNot_3 T s.len (by omega) g1
    have h1 := memcopy32_run T (sizeAdd T d s.totalOffset) (sizeAdd T src s.totalOffset)
      (s.len - s.len % 4) (by omega) (by omega) s.m
    have hadd : sizeAdd T s.totalOffset (s.len - s.len % 4) = L - s.len % 4 := by
      rw [sizeAdd_of_lt T _ _ (by omega)]; omega
    have hsub : sizeSub T L (L - s.len % 4) = s.len % 4 := by
      rw [sizeSub_of_le T _ _ (by omega) hL]; omega
    simp only [stage32, if_pos g, hoffset, h1, hadd, hsub, blockRest, blockRun, if_pos g2]
  · have g2 : ¬ (4 ≤ s.len ∧ 4 ≤ T.busSize) := fun h => g ⟨h.1, h.2⟩
    obtain ⟨len, off, m⟩ := s
    simp only at hinv
    have e : L - len = off := by omega
    simp only [stage32, if_neg g, blockRest, blockRun, if_neg g2, e]

theorem stage16_run (T : Target) (d src L : Nat) (s : Locals)
    (hL : L < 2 ^ T.sizeBits) (hinv : s.totalOffset + s.len = L) :
    stage16 T d src L s = .ok
      { len := blockRest T.busSize 2 s.len
        totalOffset := L - blockRest T.busSize 2 s.len
        m := blockRun T.busSize 2 (sizeAdd T d s.totalOffset) (sizeAdd T src s.totalOffset)
          s.len s.m } := by
  by_cases g : s.len > 0b1 ∧ T.busSize ≥ sizeof_uint16
  · have g1 : 1 < s.len := g.1
    have g2 : 2 ≤ s.len ∧ 2 ≤ T.busSize := ⟨g.1, g.2⟩
    have hoffset : s.len &&& sizeNot T 0b1 = s.len - s.len % 2 :=
      and_sizeNot_1 T s.len (by omega) g1
    have h1 := memcopy16_run T (sizeAdd T d s.totalOffset) (sizeAdd T src s.totalOffset)
      (s.len - s.len % 2) (by omega) (by omega) s.m
    have hadd : sizeAdd T s.totalOffset (s.len - s.len % 2) = L - s.len % 2 := by
      rw [sizeAdd_of_lt T _ _ (by omega)]; omega
    have hsub : sizeSub T L (L - s.len % 2) = s.len % 2 := by
      rw [sizeSub_of_le T _ _ (by omega) hL]; omega
    simp only [stage16, if_pos g, hoffset, h1, hadd, hsub, blockRest, blockRun, if_pos g2]
  · have g2 : ¬ (2 ≤ s.len ∧ 2 ≤ T.busSize) := fun h => g ⟨h.1, h.2⟩
    obtain ⟨len, off, m⟩ := s
    simp only at hinv
    have e : L - len = off := by omega
    simp only [stage16, if_neg g, blockRest, blockRun, if_neg g2, e]

theorem stage8_run (T : Target) (d src : Nat) (s : Locals) (hlen : s.len < 2 ^ T.sizeBits) :
    stage8 T d src s = .ok
      { len := s.len
        totalOffset := s.totalOffset
        m := blockRun T.busSize 1 (sizeAdd T d s.totalOffset) (sizeAdd T src s.totalOffset)
          s.len s.m } := by
  by_cases g : s.len ≠ 0 ∧ T.busSize ≥ sizeof_uint8
  · have g2 : 1 ≤ s.len ∧ 1 ≤ T.busSize := ⟨Nat.pos_of_ne_zero g.1, g.2⟩
    have h1 := memcopy8_run T (sizeAdd T d s.totalOffset) (sizeAdd T src s.totalOffset)
      s.len hlen s.m
    simp only [stage8, if_pos g, h1, blockRun, if_pos g2, Nat.mod_one, Nat.sub_zero]
  · have g2 : ¬ (1 ≤ s.len ∧ 1 ≤ T.busSize) := fun h => g ⟨Nat.ne_of_gt h.1, h.2⟩
    simp only [stage8, if_neg g, blockRun, if_neg g2]

/-- For a non-zero length that fits `size_t`, `memcopy` ends normally, returns `a_dest`
and leaves the machine `dispatchRun`. -/
theorem memcopy_exact (T : Target) (d src L : Nat) (m : Machine)
    (hL : L < 2 ^ T.sizeBits) (h0 : L ≠ 0) :
    memcopy T d src L m = .ok (d, dispatchRun T d src L m) := by
  have r8 := blockRest_le T.busSize 8 L (by decide)
  have r4 := blockRest_le T.busSize 4 (blockRest T.busSize 8 L) (by decide)
  have r2 := blockRest_le T.busSize 2 (blockRest T.busSize 4 (blockRest T.busSize 8 L))
    (by decide)
  have e1 := stage64_run T d src { len := L, totalOffset := 0, m := m } hL rfl
  have e2 := stage32_run T d src L
    { len := blockRest T.busSize 8 L
      totalOffset := L - blockRest T.busSize 8 L
      m := blockRun T.busSize 8 d src L m } hL
    (show (L - blockRest T.busSize 8 L) + blockRest T.busSize 8 L = L by omega)
  have e3 := stage16_run T d src L
    { len := blockRest T.busSize 4 (blockRest T.busSize 8 L)
      totalOffset := L - blockRest T.busSize 4 (blockRest T.busSize 8 L)
      m := blockRun T.busSize 4 (sizeAdd T d (L - blockRest T.busSize 8 L))
        (sizeAdd T src (L - blockRest T.busSize 8 L)) (blockRest T.busSize 8 L)
        (blockRun T.busSize 8 d src L m) } hL
    (show (L - blockRest T.busSize 4 (blockRest T.busSize 8 L)) +
      blockRest T.busSize 4 (blockRest T.busSize 8 L) = L by omega)
  have e4 := stage8_run T d src
    { len := blockRest T.busSize 2 (blockRest T.busSize 4 (blockRest T.busSize 8 L))
      totalOffset := L - blockRest T.busSize 2 (blockRest T.busSize 4 (blockRest T.busSize 8 L))
      m := blockRun T.busSize 2
        (sizeAdd T d (L - blockRest T.busSize 4 (blockRest T.busSize 8 L)))
        (sizeAdd T src (L - blockRest T.busSize 4 (blockRest T.busSize 8 L)))
        (blockRest T.busSize 4 (blockRest T.busSize 8 L))
        (blockRun T.busSize 4 (sizeAdd T d (L - blockRest T.busSize 8 L))
          (sizeAdd T src (L - blockRest T.busSize 8 L)) (blockRest T.busSize 8 L)
          (blockRun T.busSize 8 d src L m)) }
    (show blockRest T.busSize 2 (blockRest T.busSize 4 (blockRest T.busSize 8 L)) <
      2 ^ T.sizeBits by omega)
  simp only at e1 e2 e3 e4
  simp only [memcopy, if_neg h0, e1, e2, e3, e4]
  rfl

/-! ## Chunks of the dispatcher -/

theorem callArgs_blockRun (B W d1 s1 len : Nat) (m : Machine) :
    callArgs (blockRun B W d1 s1 len m).trace =
      callArgs m.trace ++ (if W ≤ len ∧ W ≤ B then [(W, d1, s1, len - len % W)] else []) := by
  unfold blockRun
  split_ifs
  · exact callArgs_loopRun W d1 s1 _ m
  · simp

theorem callsOf_eq_callArgs (tr : List Event) :
    callsOf tr = (callArgs tr).map (fun c => (c.1, c.2.2.2)) := by
  induction tr with
  | nil => rfl
  | cons e es ih =>
    cases e with
    | call W d s n => simp [callsOf, callArgs, ih]
    | assign W d s => simp [callsOf, callArgs, ih]

/-- One block extends a chain of chunks: entered with `len` bytes remaining, it is given
offset `L - len` and leaves `blockRest` bytes for the blocks after it. -/
theorem chunksFrom_block (B W d s d1 s1 L len : Nat) (rest : List (Nat × Nat × Nat × Nat))
    (hle : len ≤ L) (hd1 : W ≤ len → d1 = d + (L - len))
    (hs1 : W ≤ len → s1 = s + (L - len))
    (h : chunksFrom d s (L - blockRest B W len) rest) :
    chunksFrom d s (L - len)
      ((if W ≤ len ∧ W ≤ B then [(W, d1, s1, len - len % W)] else []) ++ rest) := by
  unfold blockRest at h
  by_cases g : W ≤ len ∧ W ≤ B
  · rw [if_pos g] at h ⊢
    have hm : len % W ≤ len := Nat.mod_le len W
    have e : L - len + (len - len % W) = L - len % W := by omega
    simp only [List.singleton_append, chunksFrom, e]
    exact ⟨hd1 g.1, hs1 g.1, h⟩
  · rw [if_neg g] at h ⊢
    simpa using h

/-- Chunks that lie one after the other start at or after the first offset. -/
theorem chunksFrom_lower (d s : Nat) (cs : List (Nat × Nat × Nat × Nat)) :
    ∀ off, chunksFrom d s off cs → ∀ c ∈ cs, d + off ≤ c.2.1 := by
  induction cs with
  | nil => intro off _ c hc; simp at hc
  | cons c0 cs ih =>
    intro off h c hc
    obtain ⟨W0, d0, s0, n0⟩ := c0
    obtain ⟨h1, _, h3⟩ := h
    rcases List.mem_cons.1 hc with rfl | hc
    · exact Nat.le_of_eq h1.symm
    · have := ih (off + n0) h3 c hc
      omega

/-- Chunks that lie one after the other are in ascending order and pairwise disjoint:
each ends where or before every later one begins. -/
theorem chunksFrom_pairwise (d s : Nat) (cs : List (Nat × Nat × Nat × Nat)) :
    ∀ off, chunksFrom d s off cs →
      List.Pairwise (fun c c2 => c.2.1 + c.2.2.2 ≤ c2.2.1) cs := by
  induction cs with
  | nil => intro _ _; exact List.Pairwise.nil
  | cons c0 cs ih =>
    intro off h
    obtain ⟨W0, d0, s0, n0⟩ := c0
    obtain ⟨h1, _, h3⟩ := h
    refine List.Pairwise.cons ?_ (ih (off + n0) h3)
    intro c hc
    have := chunksFrom_lower d s cs (off + n0) h3 c hc
    show d0 + n0 ≤ c.2.1
    omega

/-- Chunks that lie one after the other cover exactly the offsets from the first offset
up to the first offset plus the total byte count. -/
theorem chunksFrom_cover (d s : Nat) (cs : List (Nat × Nat × Nat × Nat)) :
    ∀ off, chunksFrom d s off cs → ∀ x,
      (∃ c ∈ cs, c.2.1 ≤ d + x ∧ d + x < c.2.1 + c.2.2.2) ↔
        (off ≤ x ∧ x < off + (cs.map (fun c => c.2.2.2)).sum) := by
  induction cs with
  | nil => intro off _ x; simp
  | cons c0 cs ih =>
    intro off h x
    obtain ⟨W0, d0, s0, n0⟩ := c0
    obtain ⟨h1, _, h3⟩ := h
    have hrec := ih (off + n0) h3 x
    simp only [List.mem_cons, exists_eq_or_imp, List.map_cons, List.sum_cons]
    rw [hrec]
    subst h1
    constructor
    · rintro (h | h) <;> omega
    · intro h
      by_cases hx : x < off + n0
      · exact Or.inl (by omega)
      · exact Or.inr (by omega)

theorem dispatchRun_callsOf (T : Target) (d src L : Nat) (m : Machine)
    (hL : L < 2 ^ T.sizeBits) (h0 : L ≠ 0) :
    callsOf (dispatchRun T d src L m).trace = callsOf m.trace ++ dispatchCalls T.busSize L := by
  obtain ⟨m1, h1, hc⟩ := memcopy_dispatch T d src L m hL h0
  rw [memcopy_exact T d src L m hL h0] at h1
  have e : dispatchRun T d src L m = m1 := (Prod.mk.inj (Except.ok.inj h1)).2
  rw [e]
  exact hc

/-- The chunks of a run lie one after the other from offset 0 on, when both regions lie
inside the address space. -/
theorem dispatchRun_chunks (T : Target) (d s L : Nat) (mem : Nat → Nat)
    (hd : d + L ≤ 2 ^ T.sizeBits) (hs : s + L ≤ 2 ^ T.sizeBits) :
    chunksFrom d s 0 (callArgs (dispatchRun T d s L (start mem)).trace) := by
  have r8 := blockRest_le T.busSize 8 L (by decide)
  have r4 := blockRest_le T.busSize 4 (blockRest T.busSize 8 L) (by decide)
  have r2 := blockRest_le T.busSize 2 (blockRest T.busSize 4 (blockRest T.busSize 8 L))
    (by decide)
  simp only [dispatchRun, callArgs_blockRun, start, callArgs, List.nil_append,
    List.append_assoc]
  have e0 : (0 : Nat) = L - L := by omega
  rw [e0]
  apply chunksFrom_block _ _ _ _ _ _ _ _ _ (Nat.le_refl L) (fun _ => by omega)
    (fun _ => by omega)
  apply chunksFrom_block _ _ _ _ _ _ _ _ _ r8
    (fun h => sizeAdd_of_lt T _ _ (by omega)) (fun h => sizeAdd_of_lt T _ _ (by omega))
  apply chunksFrom_block _ _ _ _ _ _ _ _ _ (by omega)
    (fun h => sizeAdd_of_lt T _ _ (by omega)) (fun h => sizeAdd_of_lt T _ _ (by omega))
  have h1 := chunksFrom_block T.busSize 1 d s
    (sizeAdd T d (L - blockRest T.busSize 2 (blockRest T.busSize 4 (blockRest T.busSize 8 L))))
    (sizeAdd T s (L - blockRest T.busSize 2 (blockRest T.busSize 4 (blockRest T.busSize 8 L))))
    L (blockRest T.busSize 2 (blockRest T.busSize 4 (blockRest T.busSize 8 L))) []
    (by omega) (fun h => sizeAdd_of_lt T _ _ (by omega))
    (fun h => sizeAdd_of_lt T _ _ (by omega)) trivial
  simpa using h1

theorem blockCalls_fst_sublist (B W len : Nat) :
    List.Sublist ((blockCalls B W len).map Prod.fst) [W] := by
  unfold blockCalls
  split_ifs
  · simp
  · simp

theorem dispatchCalls_fst_sublist (B L : Nat) :
    List.Sublist ((dispatchCalls B L).map Prod.fst) [8, 4, 2, 1] := by
  unfold dispatchCalls
  simp only [List.map_append]
  exact (blockCalls_fst_sublist B 8 L).append
    ((blockCalls_fst_sublist B 4 _).append
      ((blockCalls_fst_sublist B 2 _).append (blockCalls_fst_sublist B 1 _)))

/-- A block makes at most as many element assignments as it takes bytes. -/
theorem assignsOf_blockRun_le (B W d1 s1 len : Nat) (m : Machine) :
    (assignsOf (blockRun B W d1 s1 len m).trace).length + blockRest B W len ≤
      (assignsOf m.trace).length + len := by
  unfold blockRun blockRest
  by_cases g : W ≤ len ∧ W ≤ B
  · rw [if_pos g, if_pos g, assignsOf_loopRun]
    have h1 : (len - len % W) / W ≤ len - len % W := Nat.div_le_self _ _
    have h2 : len % W ≤ len := Nat.mod_le len W
    simp only [List.length_append, List.length_map, List.length_range]
    omega
  · rw [if_neg g, if_neg g]

theorem dispatchRun_assigns_le (T : Target) (d s L : Nat) (m : Machine) :
    (assignsOf (dispatchRun T d s L m).trace).length ≤ (assignsOf m.trace).length + L := by
  have a8 := assignsOf_blockRun_le T.busSize 8 d s L m
  have a4 := assignsOf_blockRun_le T.busSize 4 (sizeAdd T d (L - blockRest T.busSize 8 L))
    (sizeAdd T s (L - blockRest T.busSize 8 L)) (blockRest T.busSize 8 L)
    (blockRun T.busSize 8 d s L m)
  have a2 := assignsOf_blockRun_le T.busSize 2
    (sizeAdd T d (L - blockRest T.busSize 4 (blockRest T.busSize 8 L)))
    (sizeAdd T s (L - blockRest T.busSize 4 (blockRest T.busSize 8 L)))
    (blockRest T.busSize 4 (blockRest T.busSize 8 L))
    (blockRun T.busSize 4 (sizeAdd T d (L - blockRest T.busSize 8 L))
      (sizeAdd T s (L - blockRest T.busSize 8 L)) (blockRest T.busSize 8 L)
      (blockRun T.busSize 8 d s L m))
  have a1 := assignsOf_blockRun_le T.busSize 1
    (sizeAdd T d (L - blockRest T.busSize 2 (blockRest T.busSize 4 (blockRest T.busSize 8 L))))
    (sizeAdd T s (L - blockRest T.busSize 2 (blockRest T.busSize 4 (blockRest T.busSize 8 L))))
    (blockRest T.busSize 2 (blockRest T.busSize 4 (blockRest T.busSize 8 L)))
    (blockRun T.busSize 2
      (sizeAdd T d (L - blockRest T.busSize 4 (blockRest T.busSize 8 L)))
      (sizeAdd T s (L - blockRest T.busSize 4 (blockRest T.busSize 8 L)))
      (blockRest T.busSize 4 (blockRest T.busSize 8 L))
      (blockRun T.busSize 4 (sizeAdd T d (L - blockRest T.busSize 8 L))
        (sizeAdd T s (L - blockRest T.busSize 8 L)) (blockRest T.busSize 8 L)
        (blockRun T.busSize 8 d s L m)))
  simp only [dispatchRun]
  omega

/-! ## The claims on the chunks and on the work done -/

/-- C15 (contiguous chunks), as stated for every bus size, fails for bus size 0: the guard
`_BUS_SIZE >= sizeof(uint8)` of the last block is false, no loop is invoked, and for
`L = 1` no chunk covers offset 0. -/
theorem memcopy_chunks_cover_fails_bus0 :
    ∃ r m1, memcopy ⟨0, 64⟩ 1000 2000 1 (start idMem) = .ok (r, m1) ∧
      callArgs m1.trace = [] ∧
      ¬ (∃ c ∈ callArgs m1.trace, c.2.1 ≤ 1000 + 0 ∧ 1000 + 0 < c.2.1 + c.2.2.2) :=
  ⟨_, _, rfl, by decide, by decide⟩

/-- C15 (contiguous chunks), amended to bus sizes `B ≥ 1`: for every length `L` that fits
`size_t`, with both regions inside the address space, every loop invoked by `memcopy` is
given `dest + o` and `src + o` for the same offset `o`, which is the sum of the byte counts
of the loops invoked before it (0 for the first); the byte counts add up to `L`; each
chunk ends where or before every later chunk begins (ascending, pairwise disjoint); and
an offset is covered by a chunk if and only if it is smaller than `L`. -/
theorem memcopy_contiguous_chunks (T : Target) (d s L : Nat) (mem : Nat → Nat)
    (hB : 1 ≤ T.busSize) (hL : L < 2 ^ T.sizeBits)
    (hd : d + L ≤ 2 ^ T.sizeBits) (hs : s + L ≤ 2 ^ T.sizeBits) :
    ∃ r m1, memcopy T d s L (start mem) = .ok (r, m1) ∧
      chunksFrom d s 0 (callArgs m1.trace) ∧
      ((callArgs m1.trace).map (fun c => c.2.2.2)).sum = L ∧
      List.Pairwise (fun c c2 => c.2.1 + c.2.2.2 ≤ c2.2.1) (callArgs m1.trace) ∧
      (∀ x, x < L ↔ ∃ c ∈ callArgs m1.trace, c.2.1 ≤ d + x ∧ d + x < c.2.1 + c.2.2.2) := by
  by_cases h0 : L = 0
  · subst h0
    refine ⟨NULL, start mem, rfl, trivial, rfl, List.Pairwise.nil, ?_⟩
    intro x
    simp [start, callArgs]
  · have hch := dispatchRun_chunks T d s L mem hd hs
    have hsum : ((callArgs (dispatchRun T d s L (start mem)).trace).map
        (fun c => c.2.2.2)).sum = L := by
      have h1 := dispatchRun_callsOf T d s L (start mem) hL h0
      have h2 := dispatchCalls_sum T.busSize L hB
      rw [callsOf_eq_callArgs] at h1
      simp only [start, callsOf, List.nil_append] at h1
      rw [← h1, List.map_map] at h2
      exact h2
    refine ⟨d, _, memcopy_exact T d s L (start mem) hL h0, hch, hsum,
      chunksFrom_pairwise d s _ 0 hch, ?_⟩
    intro x
    rw [chunksFrom_cover d s _ 0 hch x, hsum]
    omega

theorem memcopy_contiguous_chunks_witness :
    1 ≤ 8 ∧ 15 < 2 ^ 64 ∧ 1000 + 15 ≤ 2 ^ 64 ∧ 2000 + 15 ≤ 2 ^ 64 ∧
      ∃ r m1, memcopy ⟨8, 64⟩ 1000 2000 15 (start idMem) = .ok (r, m1) ∧
        chunksFrom 1000 2000 0 (callArgs m1.trace) ∧
        ((callArgs m1.trace).map (fun c => c.2.2.2)).sum = 15 ∧
        List.Pairwise (fun c c2 => c.2.1 + c.2.2.2 ≤ c2.2.1) (callArgs m1.trace) ∧
        (∀ x, x < 15 ↔
          ∃ c ∈ callArgs m1.trace, c.2.1 ≤ 1000 + x ∧ 1000 + x < c.2.1 + c.2.2.2) :=
  ⟨by decide, by decide, by decide, by decide,
    memcopy_contiguous_chunks ⟨8, 64⟩ 1000 2000 15 idMem (by decide) (by decide) (by decide)
      (by decide)⟩

/-- C17 (bounded work): for every target and every length `L` that fits `size_t`,
`memcopy` ends normally (every loop terminates); the widths of the loops it invokes, in
order of invocation, form a sublist of 8, 4, 2, 1 (each width at most once, in this
order), so at most 4 loops are invoked; and the loops together make at most `L` element
assignments. -/
theorem memcopy_bounded_work (T : Target) (d s L : Nat) (mem : Nat → Nat)
    (hL : L < 2 ^ T.sizeBits) :
    ∃ r m1, memcopy T d s L (start mem) = .ok (r, m1) ∧
      List.Sublist ((callsOf m1.trace).map Prod.fst) [8, 4, 2, 1] ∧
      (callsOf m1.trace).length ≤ 4 ∧
      (assignsOf m1.trace).length ≤ L := by
  by_cases h0 : L = 0
  · subst h0
    exact ⟨NULL, start mem, rfl, by simp [start, callsOf], by simp [start, callsOf],
      by simp [start, assignsOf]⟩
  · have hc := dispatchRun_callsOf T d s L (start mem) hL h0
    simp only [start, callsOf, List.nil_append] at hc
    have hsub := dispatchCalls_fst_sublist T.busSize L
    have hlen := hsub.length_le
    have ha := dispatchRun_assigns_le T d s L (start mem)
    simp only [start, assignsOf, List.length_nil, Nat.zero_add] at ha
    refine ⟨d, _, memcopy_exact T d s L (start mem) hL h0, ?_, ?_, ha⟩
    · rw [show (dispatchRun T d s L (start mem)) = dispatchRun T d s L ⟨mem, []⟩ from rfl, hc]
      exact hsub
    · rw [show (dispatchRun T d s L (start mem)) = dispatchRun T d s L ⟨mem, []⟩ from rfl, hc]
      simpa using hlen

theorem memcopy_bounded_work_witness :
    15 < 2 ^ 64 ∧
      ∃ r m1, memcopy ⟨8, 64⟩ 1000 2000 15 (start idMem) = .ok (r, m1) ∧
        List.Sublist ((callsOf m1.trace).map Prod.fst) [8, 4, 2, 1] ∧
        (callsOf m1.trace).length ≤ 4 ∧
        (assignsOf m1.trace).length ≤ 15 :=
  ⟨by decide, memcopy_bounded_work ⟨8, 64⟩ 1000 2000 15 idMem (by decide)⟩

/-! ## Blocks that copy their chunk correctly -/

theorem blockRun_congr (B W d1 s1 d2 s2 len : Nat) (m : Machine)
    (h : W ≤ len → d1 = d2 ∧ s1 = s2) :
    blockRun B W d1 s1 len m = blockRun B W d2 s2 len m := by
  unfold blockRun
  by_cases g : W ≤ len ∧ W ≤ B
  · obtain ⟨e1, e2⟩ := h g.1
    rw [e1, e2]
  · rw [if_neg g, if_neg g]

theorem blockRest_lt (B W len : Nat) (hW : 0 < W) (hB : W ≤ B) : blockRest B W len < W := by
  unfold blockRest
  by_cases g : W ≤ len ∧ W ≤ B
  · rw [if_pos g]; exact Nat.mod_lt len hW
  · rw [if_neg g]
    by_contra hc
    exact g ⟨by omega, hB⟩

theorem blockRest_skip (B W len : Nat) (hB : B < W) : blockRest B W len = len := by
  unfold blockRest
  rw [if_neg (fun g => by omega)]

/-- A block that makes at most one element assignment, or is the byte block, copies its
chunk: the bytes of the chunk receive the source bytes at the same offsets, every other
byte is unchanged, and every assignment it makes stays inside the chunk. -/
theorem blockRun_good (B W d1 s1 len : Nat) (m : Machine) (hW : 0 < W)
    (hgood : W ≤ len → W ≤ B → len < 2 * W ∨ W = 1)
    (hdis : d1 + len ≤ s1 ∨ s1 + len ≤ d1) :
    (∀ a, (blockRun B W d1 s1 len m).mem a =
      if d1 ≤ a ∧ a < d1 + (len - blockRest B W len) then m.mem (s1 + (a - d1))
      else m.mem a) ∧
    (∀ e ∈ assignsOf (blockRun B W d1 s1 len m).trace, e ∈ assignsOf m.trace ∨
      (d1 ≤ e.1 ∧ e.1 + e.2.2 ≤ d1 + (len - blockRest B W len) ∧
        s1 ≤ e.2.1 ∧ e.2.1 + e.2.2 ≤ s1 + (len - blockRest B W len))) := by
  unfold blockRun blockRest
  by_cases g : W ≤ len ∧ W ≤ B
  · rw [if_pos g, if_pos g]
    obtain ⟨m1, h1, h2, _, h4, h5⟩ := loopRun_accessPattern W d1 s1 (len - len % W) m hW
    obtain ⟨rfl⟩ : loopRun W d1 s1 (len - len % W) m = m1 := (Prod.mk.inj (Except.ok.inj h1)).2
    rcases hgood g.1 g.2 with hlt | hW1
    · have hmod : len % W = len - W := by
        rw [Nat.mod_eq_sub_mod g.1, Nat.mod_eq_of_lt (by omega)]
      have hn : len - len % W = W := by omega
      have hdiv : W / W = 1 := Nat.div_self hW
      rw [hn] at h2 ⊢
      rw [hdiv] at h2
      constructor
      · intro a
        show (elemsFrom W d1 s1 0 (W / W) (enter W d1 s1 W m)).mem a = _
        rw [hdiv]
        show (if d1 + (0 + 0) * W * W ≤ a ∧ a < d1 + (0 + 0) * W * W + W then
          m.mem (s1 + (0 + 0) * W * W + (a - (d1 + (0 + 0) * W * W))) else m.mem a) = _
        simp only [Nat.add_zero, Nat.zero_mul]
      · intro e he
        rw [h2] at he
        rcases List.mem_append.1 he with he | he
        · exact Or.inl he
        · right
          simp only [List.range_succ, List.range_zero, List.nil_append, List.map_singleton,
            List.mem_singleton, Nat.zero_mul, Nat.add_zero] at he
          subst he
          simp
    · subst hW1
      simp only [Nat.mod_one, Nat.sub_zero, Nat.div_one, Nat.mul_one] at h2 h4 h5 ⊢
      constructor
      · intro a
        by_cases ha : d1 ≤ a ∧ a < d1 + len
        · rw [if_pos ha]
          have := h5 hdis (a - d1) 0 (by omega) (by decide)
          simp only [Nat.add_zero] at this
          rw [← this]
          congr 1
          omega
        · rw [if_neg ha]
          apply h4
          intro k hk hc
          exact ha ⟨by omega, by omega⟩
      · intro e he
        rw [h2] at he
        rcases List.mem_append.1 he with he | he
        · exact Or.inl he
        · right
          obtain ⟨i, hi, rfl⟩ := List.mem_map.1 he
          have hi2 : i < len := List.mem_range.1 hi
          simp only
          omega
  · rw [if_neg g, if_neg g]
    constructor
    · intro a
      rw [if_neg (by omega)]
    · intro e he
      exact Or.inl he

/-- Copying the chunk `[off, off + n)` after the chunk `[0, off)` has been copied gives the
chunk `[0, off + n)` copied, when the two regions do not overlap. -/
theorem copy_step (mem0 m m1 : Nat → Nat) (d s L off n off2 : Nat) (he : off2 = off + n)
    (hle : off2 ≤ L) (hdis : d + L ≤ s ∨ s + L ≤ d)
    (hP : ∀ a, m a = if d ≤ a ∧ a < d + off then mem0 (s + (a - d)) else mem0 a)
    (hG : ∀ a, m1 a =
      if d + off ≤ a ∧ a < d + off + n then m (s + off + (a - (d + off))) else m a) :
    ∀ a, m1 a = if d ≤ a ∧ a < d + off2 then mem0 (s + (a - d)) else mem0 a := by
  subst he
  intro a
  rw [hG a]
  by_cases h1 : d + off ≤ a ∧ a < d + off + n
  · rw [if_pos h1, hP, if_neg (by omega), if_pos (by omega)]
    congr 1
    omega
  · rw [if_neg h1, hP a]
    by_cases h2 : d ≤ a ∧ a < d + off
    · rw [if_pos h2, if_pos (by omega)]
    · rw [if_neg h2, if_neg (by omega)]

/-- For a bus size in {1, 2, 4, 8} and a length below twice the bus size (any length for
bus size 1), the four blocks copy `src[0..L)` to `dest[0..L)`, change nothing else and
stay inside the two regions. -/
theorem dispatchRun_short (T : Target) (d s L : Nat) (m0 : Machine)
    (hB : T.busSize = 1 ∨ T.busSize = 2 ∨ T.busSize = 4 ∨ T.busSize = 8)
    (hshort : L < 2 * T.busSize ∨ T.busSize = 1)
    (hd : d + L ≤ 2 ^ T.sizeBits) (hs : s + L ≤ 2 ^ T.sizeBits)
    (hdis : d + L ≤ s ∨ s + L ≤ d) :
    (∀ a, (dispatchRun T d s L m0).mem a =
      if d ≤ a ∧ a < d + L then m0.mem (s + (a - d)) else m0.mem a) ∧
    (∀ e ∈ assignsOf (dispatchRun T d s L m0).trace, e ∈ assignsOf m0.trace ∨
      (d ≤ e.1 ∧ e.1 + e.2.2 ≤ d + L ∧ s ≤ e.2.1 ∧ e.2.1 + e.2.2 ≤ s + L)) := by
  have r8 := blockRest_le T.busSize 8 L (by decide)
  have r4 := blockRest_le T.busSize 4 (blockRest T.busSize 8 L) (by decide)
  have r2 := blockRest_le T.busSize 2 (blockRest T.busSize 4 (blockRest T.busSize 8 L))
    (by decide)
  have r1 := blockRest_lt T.busSize 1
    (blockRest T.busSize 2 (blockRest T.busSize 4 (blockRest T.busSize 8 L))) (by decide)
    (by omega)
  have q8 : 8 ≤ T.busSize → blockRest T.busSize 8 L < 8 :=
    fun h => blockRest_lt T.busSize 8 L (by decide) h
  have p8 : T.busSize < 8 → blockRest T.busSize 8 L = L :=
    fun h => blockRest_skip T.busSize 8 L h
  have q4 : 4 ≤ T.busSize → blockRest T.busSize 4 (blockRest T.busSize 8 L) < 4 :=
    fun h => blockRest_lt T.busSize 4 _ (by decide) h
  have p4 : T.busSize < 4 →
      blockRest T.busSize 4 (blockRest T.busSize 8 L) = blockRest T.busSize 8 L :=
    fun h => blockRest_skip T.busSize 4 _ h
  generalize h8 : blockRest T.busSize 8 L = l4 at *
  generalize h4 : blockRest T.busSize 4 l4 = l2 at *
  generalize h2 : blockRest T.busSize 2 l2 = l1 at *
  have e4 : blockRun T.busSize 4 (sizeAdd T d (L - l4)) (sizeAdd T s (L - l4)) l4 =
      blockRun T.busSize 4 (d + (L - l4)) (s + (L - l4)) l4 := by
    funext m
    exact blockRun_congr _ _ _ _ _ _ _ m
      (fun h => ⟨sizeAdd_of_lt T _ _ (by omega), sizeAdd_of_lt T _ _ (by omega)⟩)
  have e2 : blockRun T.busSize 2 (sizeAdd T d (L - l2)) (sizeAdd T s (L - l2)) l2 =
      blockRun T.busSize 2 (d + (L - l2)) (s + (L - l2)) l2 := by
    funext m
    exact blockRun_congr _ _ _ _ _ _ _ m
      (fun h => ⟨sizeAdd_of_lt T _ _ (by omega), sizeAdd_of_lt T _ _ (by omega)⟩)
  have e1 : blockRun T.busSize 1 (sizeAdd T d (L - l1)) (sizeAdd T s (L - l1)) l1 =
      blockRun T.busSize 1 (d + (L - l1)) (s + (L - l1)) l1 := by
    funext m
    exact blockRun_congr _ _ _ _ _ _ _ m
      (fun h => ⟨sizeAdd_of_lt T _ _ (by omega), sizeAdd_of_lt T _ _ (by omega)⟩)
  have hrun : dispatchRun T d s L m0 =
      blockRun T.busSize 1 (d + (L - l1)) (s + (L - l1)) l1
        (blockRun T.busSize 2 (d + (L - l2)) (s + (L - l2)) l2
          (blockRun T.busSize 4 (d + (L - l4)) (s + (L - l4)) l4
            (blockRun T.busSize 8 d s L m0))) := by
    simp only [dispatchRun, h8, h4, h2, e4, e2, e1]
  rw [hrun]
  obtain ⟨G8, A8⟩ := blockRun_good T.busSize 8 d s L m0 (by decide)
    (fun _ _ => by omega) (by omega)
  obtain ⟨G4, A4⟩ := blockRun_good T.busSize 4 (d + (L - l4)) (s + (L - l4)) l4
    (blockRun T.busSize 8 d s L m0) (by decide)
    (fun _ hb => by
      rcases Nat.lt_or_ge T.busSize 8 with h | h
      · have := p8 h; omega
      · have := q8 h; omega) (by omega)
  obtain ⟨G2, A2⟩ := blockRun_good T.busSize 2 (d + (L - l2)) (s + (L - l2)) l2
    (blockRun T.busSize 4 (d + (L - l4)) (s + (L - l4)) l4
      (blockRun T.busSize 8 d s L m0)) (by decide)
    (fun _ hb => by
      rcases Nat.lt_or_ge T.busSize 4 with h | h
      · have := p4 h
        have := p8 (by omega)
        omega
      · have := q4 h; omega) (by omega)
  obtain ⟨G1, A1⟩ := blockRun_good T.busSize 1 (d + (L - l1)) (s + (L - l1)) l1
    (blockRun T.busSize 2 (d + (L - l2)) (s + (L - l2)) l2
      (blockRun T.busSize 4 (d + (L - l4)) (s + (L - l4)) l4
        (blockRun T.busSize 8 d s L m0))) (by decide)
    (fun _ _ => Or.inr rfl) (by omega)
  rw [h8] at G8 A8
  rw [h4] at G4 A4
  rw [h2] at G2 A2
  constructor
  · have P4 := copy_step m0.mem _ _ d s L (L - l4) (l4 - l2) (L - l2) (by omega) (by omega)
      hdis G8 G4
    have P2 := copy_step m0.mem _ _ d s L (L - l2) (l2 - l1) (L - l1) (by omega) (by omega)
      hdis P4 G2
    exact copy_step m0.mem _ _ d s L (L - l1) (l1 - blockRest T.busSize 1 l1) L (by omega)
      (by omega) hdis P2 G1
  · intro e he
    rcases A1 e he with he | hb
    · rcases A2 e he with he | hb
      · rcases A4 e he with he | hb
        · rcases A8 e he with he | hb
          · exact Or.inl he
          · right; omega
        · right; omega
      · right; omega
    · right; omega

/-- For a bus size in {1, 2, 4, 8} and a length below twice the bus size, every loop wider
than a byte is given exactly one element. -/
theorem dispatchCalls_one_element (B L W n : Nat)
    (hB : B = 1 ∨ B = 2 ∨ B = 4 ∨ B = 8) (hshort : L < 2 * B ∨ B = 1)
    (h : (W, n) ∈ dispatchCalls B L) : W = 1 ∨ n = W := by
  have q8 : 8 ≤ B → blockRest B 8 L < 8 := fun h => blockRest_lt B 8 L (by decide) h
  have p8 : B < 8 → blockRest B 8 L = L := fun h => blockRest_skip B 8 L h
  have q4 : 4 ≤ B → blockRest B 4 (blockRest B 8 L) < 4 :=
    fun h => blockRest_lt B 4 _ (by decide) h
  have p4 : B < 4 → blockRest B 4 (blockRest B 8 L) = blockRest B 8 L :=
    fun h => blockRest_skip B 4 _ h
  simp only [dispatchCalls, List.mem_append] at h
  rcases h with h | h | h | h
  · obtain ⟨rfl, rfl, h1, h2⟩ := mem_blockCalls _ _ _ _ _ h
    right; omega
  · obtain ⟨rfl, rfl, h1, h2⟩ := mem_blockCalls _ _ _ _ _ h
    right
    rcases Nat.lt_or_ge B 8 with hb | hb
    · have := p8 hb; omega
    · have := q8 hb; omega
  · obtain ⟨rfl, rfl, h1, h2⟩ := mem_blockCalls _ _ _ _ _ h
    right
    rcases Nat.lt_or_ge B 4 with hb | hb
    · have := p4 hb
      have := p8 (by omega)
      omega
    · have := q4 hb; omega
  · obtain ⟨rfl, _, _, _⟩ := mem_blockCalls _ _ _ _ _ h
    exact Or.inl rfl

/-! ## The claim on short transfers -/

/-- C18 (short transfers): for every bus size `B` in {1, 2, 4, 8} and every length `L`
with `L < 2 * B` (every `L` that fits `size_t` when `B = 1`), on regions that lie inside the
address space and do not overlap, `memcopy` ends normally; afterwards `dest[i]` holds the
original `src[i]` for every `i < L`; every byte outside `dest[0..L)` is unchanged; every
element assignment reads inside `src[0..L)` and writes inside `dest[0..L)`; and every loop
wider than a byte is given exactly one element. -/
theorem memcopy_short_transfers (T : Target) (d s L : Nat) (mem : Nat → Nat)
    (hB : T.busSize = 1 ∨ T.busSize = 2 ∨ T.busSize = 4 ∨ T.busSize = 8)
    (hshort : L < 2 * T.busSize ∨ T.busSize = 1)
    (hL : L < 2 ^ T.sizeBits) (hd : d + L ≤ 2 ^ T.sizeBits) (hs : s + L ≤ 2 ^ T.sizeBits)
    (hdis : d + L ≤ s ∨ s + L ≤ d) :
    ∃ r m1, memcopy T d s L (start mem) = .ok (r, m1) ∧
      (∀ i, i < L → m1.mem (d + i) = mem (s + i)) ∧
      (∀ a, ¬ (d ≤ a ∧ a < d + L) → m1.mem a = mem a) ∧
      (∀ e ∈ assignsOf m1.trace,
        d ≤ e.1 ∧ e.1 + e.2.2 ≤ d + L ∧ s ≤ e.2.1 ∧ e.2.1 + e.2.2 ≤ s + L) ∧
      (∀ W n, (W, n) ∈ callsOf m1.trace → W = 1 ∨ n = W) := by
  by_cases h0 : L = 0
  · subst h0
    refine ⟨NULL, start mem, rfl, ?_, ?_, ?_, ?_⟩
    · intro i hi; omega
    · intro a _; rfl
    · intro e he; simp [start, assignsOf] at he
    · intro W n h; simp [start, callsOf] at h
  · obtain ⟨hmem, hacc⟩ := dispatchRun_short T d s L (start mem) hB hshort hd hs hdis
    have hc := dispatchRun_callsOf T d s L (start mem) hL h0
    refine ⟨d, _, memcopy_exact T d s L (start mem) hL h0, ?_, ?_, ?_, ?_⟩
    · intro i hi
      rw [hmem (d + i), if_pos ⟨by omega, by omega⟩]
      show mem (s + (d + i - d)) = mem (s + i)
      congr 1
      omega
    · intro a ha
      rw [hmem a, if_neg ha]
      rfl
    · intro e he
      rcases hacc e he with h | h
      · simp [start, assignsOf] at h
      · exact h
    · intro W n h
      rw [hc] at h
      simp only [start, callsOf, List.nil_append] at h
      exact dispatchCalls_one_element T.busSize L W n hB hshort h

theorem memcopy_short_transfers_witness :
    ((8 : Nat) = 1 ∨ (8 : Nat) = 2 ∨ (8 : Nat) = 4 ∨ (8 : Nat) = 8) ∧
      (15 < 2 * 8 ∨ (8 : Nat) = 1) ∧ 15 < 2 ^ 64 ∧ 1000 + 15 ≤ 2 ^ 64 ∧ 2000 + 15 ≤ 2 ^ 64 ∧
      (1000 + 15 ≤ 2000 ∨ 2000 + 15 ≤ 1000) ∧
      ∃ r m1, memcopy ⟨8, 64⟩ 1000 2000 15 (start idMem) = .ok (r, m1) ∧
        (∀ i, i < 15 → m1.mem (1000 + i) = idMem (2000 + i)) ∧
        (∀ a, ¬ (1000 ≤ a ∧ a < 1000 + 15) → m1.mem a = idMem a) ∧
        (∀ e ∈ assignsOf m1.trace,
          1000 ≤ e.1 ∧ e.1 + e.2.2 ≤ 1000 + 15 ∧ 2000 ≤ e.2.1 ∧ e.2.1 + e.2.2 ≤ 2000 + 15) ∧
        (∀ W n, (W, n) ∈ callsOf m1.trace → W = 1 ∨ n = W) :=
  ⟨by decide, by decide, by decide, by decide, by decide, by decide,
    memcopy_short_transfers ⟨8, 64⟩ 1000 2000 15 idMem (by decide) (by decide) (by decide)
      (by decide) (by decide) (by decide)⟩

end Memcopy
